import Mathlib

/-
  Verification of the lookup subsystem of the PDF-Vocabulary-Extractor
  repository: the tiered dictionary cache
  (src/vocabulary_extractor/dictionary/cache.py) and the dictionary
  service manager (src/vocabulary_extractor/dictionary/manager.py),
  together with the WordInfo data model
  (src/vocabulary_extractor/core/models.py).

  Modelling conventions:
  * Python `dict`s become association lists (`List (String × α)`) with
    insertion-order semantics: inserting an existing key updates it in
    place, a new key is appended at the end.
  * `time.time()` becomes an explicit `now : Int` argument; a single
    top-level operation is modelled as happening at one instant.
  * The md5 key hash in `DictionaryCache._make_key` is modelled by the
    pre-hash string `f"{query_type}:{word.lower().strip()}"` itself
    (the hash is injective on the keys the program uses).
  * Python `str.lower`/`str.strip` are modelled character-wise over
    the ASCII range (`Char.toLower`, ASCII whitespace).
  * Disk persistence of `PersistentCache` is modelled by its in-memory
    `_cache` map, which is what every in-process read and write uses.
  * Provider services are external collaborators; their behaviour is an
    explicit function argument (`none` models a raised exception).
-/

namespace VocabX

/-! ## Python dict as an insertion-ordered association list -/

/-- Lookup in a Python-style dict. -/
def dictLookup {α : Type} (d : List (String × α)) (k : String) : Option α :=
  match d with
  | [] => none
  | p :: ps => if p.1 = k then some p.2 else dictLookup ps k

/-- Insertion into a Python-style dict: an existing key is updated in
place, a new key is appended at the end. -/
def dictInsert {α : Type} (d : List (String × α)) (k : String) (v : α) :
    List (String × α) :=
  match d with
  | [] => [(k, v)]
  | p :: ps => if p.1 = k then (k, v) :: ps else p :: dictInsert ps k v

/-- Deletion from a Python-style dict. -/
def dictDelete {α : Type} (d : List (String × α)) (k : String) :
    List (String × α) :=
  d.filter (fun p => p.1 ≠ k)

/-- Keys of a dict, in insertion order. -/
def dictKeys {α : Type} (d : List (String × α)) : List String :=
  d.map Prod.fst

/-- The key lists of a well-formed dict contain no duplicates. -/
def dictNodup {α : Type} (d : List (String × α)) : Prop :=
  (dictKeys d).Nodup

instance {α : Type} (d : List (String × α)) : Decidable (dictNodup d) := by
  unfold dictNodup; infer_instance

/-! ## Word normalisation (Python `word.lower().strip()`) -/

/-- ASCII whitespace recognised by Python `str.strip()`. -/
def pyWhitespace (c : Char) : Bool :=
  c.toNat = 32 || c.toNat = 9 || c.toNat = 10 || c.toNat = 13 ||
  c.toNat = 11 || c.toNat = 12

/-- Python `str.strip()` on a character list: drop leading and trailing
whitespace. -/
def trimChars (l : List Char) : List Char :=
  ((l.dropWhile pyWhitespace).reverse.dropWhile pyWhitespace).reverse

/-- Python `word.lower().strip()` (ASCII model). -/
def normalizeWord (s : String) : String :=
  ⟨trimChars (s.data.map Char.toLower)⟩

/-- A string is normalised when lower-casing and stripping it leaves it
unchanged. -/
def IsNormalized (s : String) : Prop :=
  normalizeWord s = s

instance (s : String) : Decidable (IsNormalized s) := by
  unfold IsNormalized; infer_instance

/-! ## CacheEntry (cache.py, class CacheEntry) -/

/-- Cache entry: `CacheEntry.__init__` stores `data`, `timestamp` and an
optional `ttl`. -/
structure CacheEntry where
  data : String
  timestamp : Int
  ttl : Option Int
  deriving DecidableEq, Repr

/-- Translation of `CacheEntry.is_expired`: `False` when `ttl is None`,
otherwise `time.time() - self.timestamp > self.ttl`. -/
def CacheEntry.is_expired (e : CacheEntry) (now : Int) : Bool :=
  match e.ttl with
  | none => false
  | some t => now - e.timestamp > t

/-! ## MemoryCache (cache.py, class MemoryCache) -/

/-- State of `MemoryCache`: the entry dict `_cache`, the LRU bookkeeping
dict `_access_order`, and the `max_size` / `default_ttl` configuration. -/
structure MemoryCache where
  max_size : Nat
  default_ttl : Option Int
  cache : List (String × CacheEntry)
  access_order : List (String × Int)
  deriving DecidableEq, Repr

/-- Fresh `MemoryCache` as built by `MemoryCache.__init__`. -/
def MemoryCache.init (max_size : Nat) (default_ttl : Option Int) :
    MemoryCache :=
  ⟨max_size, default_ttl, [], []⟩

/-- Translation of `MemoryCache.get`: on a missing key return `None`; on
an expired entry delete it from both dicts and return `None`; otherwise
update the access time and return the data. -/
def MemoryCache.get (m : MemoryCache) (key : String) (now : Int) :
    Option String × MemoryCache :=
  match dictLookup m.cache key with
  | none => (none, m)
  | some e =>
    if e.is_expired now then
      (none, { m with cache := dictDelete m.cache key,
                      access_order := dictDelete m.access_order key })
    else
      (some e.data, { m with access_order := dictInsert m.access_order key now })

/-- Python `min(self._access_order.keys(), key=...)`: the first key
attaining the minimal access time, scanning in dict order with strict
comparison. -/
def minAccAux (best : String × Int) : List (String × Int) → String × Int
  | [] => best
  | p :: ps => if p.2 < best.2 then minAccAux p ps else minAccAux best ps

/-- Minimal-access entry of the `_access_order` dict, if nonempty. -/
def minAcc : List (String × Int) → Option (String × Int)
  | [] => none
  | p :: ps => some (minAccAux p ps)

/-- Translation of `MemoryCache._evict_lru`: no-op on an empty access
dict; otherwise delete the least-recently-accessed key from both dicts. -/
def MemoryCache.evict_lru (m : MemoryCache) : MemoryCache :=
  match minAcc m.access_order with
  | none => m
  | some p =>
    { m with cache := dictDelete m.cache p.1,
             access_order := dictDelete m.access_order p.1 }

/-- Translation of `MemoryCache.set`: default the TTL, evict the LRU
entry when at capacity and the key is new, then write the entry and its
access time. -/
def MemoryCache.set (m : MemoryCache) (key : String) (value : String)
    (ttl : Option Int) (now : Int) : MemoryCache :=
  let ttl' := match ttl with
    | none => m.default_ttl
    | some t => some t
  let m' := if m.cache.length ≥ m.max_size ∧ dictLookup m.cache key = none
    then m.evict_lru else m
  { m' with cache := dictInsert m'.cache key ⟨value, now, ttl'⟩,
            access_order := dictInsert m'.access_order key now }

/-- Translation of `MemoryCache.delete`. -/
def MemoryCache.delete (m : MemoryCache) (key : String) :
    Bool × MemoryCache :=
  match dictLookup m.cache key with
  | some _ => (true, { m with cache := dictDelete m.cache key,
                              access_order := dictDelete m.access_order key })
  | none => (false, m)

/-! ## PersistentCache (cache.py, class PersistentCache) -/

/-- State of `PersistentCache`: its `_cache` dict (the pickled file is a
faithful copy of this map). -/
structure PersistentCache where
  cache : List (String × CacheEntry)
  deriving DecidableEq, Repr

/-- Translation of `PersistentCache.get`: missing key gives `None`, an
expired entry is deleted and gives `None`, otherwise the data. -/
def PersistentCache.get (p : PersistentCache) (key : String) (now : Int) :
    Option String × PersistentCache :=
  match dictLookup p.cache key with
  | none => (none, p)
  | some e =>
    if e.is_expired now then
      (none, ⟨dictDelete p.cache key⟩)
    else
      (some e.data, p)

/-- Translation of `PersistentCache.set`: store the entry with the given
TTL and the current time. -/
def PersistentCache.set (p : PersistentCache) (key : String)
    (value : String) (ttl : Option Int) (now : Int) : PersistentCache :=
  ⟨dictInsert p.cache key ⟨value, now, ttl⟩⟩

/-! ## DictionaryCache (cache.py, class DictionaryCache) -/

/-- State of `DictionaryCache`: memory tier, persistent tier, and the
persistent TTL configuration. -/
structure DictionaryCache where
  memory_cache : MemoryCache
  persistent_cache : PersistentCache
  persistent_ttl : Int
  deriving DecidableEq, Repr

/-- Fresh `DictionaryCache` as built by `DictionaryCache.__init__`
(defaults: memory size 5000, memory TTL 3600 s, persistent TTL 7 days,
persistent tier starting empty). -/
def DictionaryCache.init (memory_cache_size : Nat) (memory_ttl : Int)
    (persistent_ttl : Int) : DictionaryCache :=
  ⟨MemoryCache.init memory_cache_size (some memory_ttl), ⟨[]⟩, persistent_ttl⟩

/-- Translation of `DictionaryCache._make_key`: the pre-hash string
`f"{query_type}:{word.lower().strip()}"` stands in for its md5 digest. -/
def make_key (word : String) (query_type : String) : String :=
  query_type ++ ":" ++ normalizeWord word

/-- Translation of `DictionaryCache.get_definition`: memory tier first;
on a miss consult the persistent tier and promote a hit into the memory
tier (with the memory tier's default TTL). -/
def DictionaryCache.get_definition (c : DictionaryCache) (word : String)
    (now : Int) : Option String × DictionaryCache :=
  let key := make_key word "definition"
  let r := c.memory_cache.get key now
  match r.1 with
  | some v => (some v, { c with memory_cache := r.2 })
  | none =>
    let r2 := c.persistent_cache.get key now
    match r2.1 with
    | some v =>
      (some v, { c with memory_cache := r.2.set key v none now,
                        persistent_cache := r2.2 })
    | none => (none, { c with memory_cache := r.2, persistent_cache := r2.2 })

/-- Translation of `DictionaryCache.set_definition`: write-through to
both tiers, the persistent tier with `persistent_ttl`. -/
def DictionaryCache.set_definition (c : DictionaryCache) (word : String)
    (definition : String) (now : Int) : DictionaryCache :=
  let key := make_key word "definition"
  { c with memory_cache := c.memory_cache.set key definition none now,
           persistent_cache := c.persistent_cache.set key definition
             (some c.persistent_ttl) now }

/-- Translation of `DictionaryCache.get_pronunciation` (same shape as
`get_definition` with the `pronunciation` key kind). -/
def DictionaryCache.get_pronunciation (c : DictionaryCache) (word : String)
    (now : Int) : Option String × DictionaryCache :=
  let key := make_key word "pronunciation"
  let r := c.memory_cache.get key now
  match r.1 with
  | some v => (some v, { c with memory_cache := r.2 })
  | none =>
    let r2 := c.persistent_cache.get key now
    match r2.1 with
    | some v =>
      (some v, { c with memory_cache := r.2.set key v none now,
                        persistent_cache := r2.2 })
    | none => (none, { c with memory_cache := r.2, persistent_cache := r2.2 })

/-- Translation of `DictionaryCache.set_pronunciation`. -/
def DictionaryCache.set_pronunciation (c : DictionaryCache) (word : String)
    (pronunciation : String) (now : Int) : DictionaryCache :=
  let key := make_key word "pronunciation"
  { c with memory_cache := c.memory_cache.set key pronunciation none now,
           persistent_cache := c.persistent_cache.set key pronunciation
             (some c.persistent_ttl) now }

/-- Translation of `DictionaryCache.get_word_info`: look up the
definition, then the pronunciation; a pair only when both are hits. -/
def DictionaryCache.get_word_info (c : DictionaryCache) (word : String)
    (now : Int) : Option (String × String) × DictionaryCache :=
  let r1 := c.get_definition word now
  let r2 := r1.2.get_pronunciation word now
  match r1.1, r2.1 with
  | some d, some p => (some (d, p), r2.2)
  | _, _ => (none, r2.2)

/-- Translation of `DictionaryCache.set_word_info`: set the definition,
then the pronunciation. -/
def DictionaryCache.set_word_info (c : DictionaryCache) (word : String)
    (definition : String) (pronunciation : String) (now : Int) :
    DictionaryCache :=
  (c.set_definition word definition now).set_pronunciation word pronunciation now

/-! ## WordInfo (models.py, dataclass WordInfo) -/

/-- The `WordInfo` dataclass fields. -/
structure WordInfo where
  word : String
  definition : String
  pronunciation : String
  found_definition : Bool
  found_pronunciation : Bool
  deriving DecidableEq, Repr

/-- Construction of a `WordInfo`: `__post_init__` normalises the word
(`self.word = self.word.lower().strip()`); the found flags default to
`True` in the dataclass and are given explicitly here. -/
def mkWordInfo (word definition pronunciation : String)
    (found_definition found_pronunciation : Bool) : WordInfo :=
  ⟨normalizeWord word, definition, pronunciation,
   found_definition, found_pronunciation⟩

/-! ## DictionaryServiceManager (manager.py) -/

/-- Translation of the `ServiceStatus` enum. -/
inductive ServiceStatus where
  | active
  | degraded
  | failed
  | disabled
  deriving DecidableEq, Repr

/-- Per-service entry of the manager's `self.services` registry
(`register_service`): priority value (`ServicePriority.value`: PRIMARY 1,
SECONDARY 2, FALLBACK 3), status, failure bookkeeping and call counts. -/
structure ServiceInfo where
  priority : Nat
  status : ServiceStatus
  failure_count : Nat
  last_failure : Option Int
  last_success : Int
  total_calls : Nat
  successful_calls : Nat
  deriving DecidableEq, Repr

/-- State of `DictionaryServiceManager`: cache flag and cache, service
registry, the used parts of `self.stats`, and the used parts of
`self.config` (`failure_threshold`, `recovery_time`). -/
structure Manager where
  cache_enabled : Bool
  cache : Option DictionaryCache
  services : List (String × ServiceInfo)
  total_requests : Nat
  cache_hits : Nat
  service_calls : List (String × Nat)
  service_failures : List (String × Nat)
  failure_threshold : Nat
  recovery_time : Int
  deriving DecidableEq, Repr

/-- Fresh manager as built by `DictionaryServiceManager.__init__`:
default config `failure_threshold = 5`, `recovery_time = 300`; the cache
is a fresh `DictionaryCache` when enabled. -/
def Manager.init (cache_enabled : Bool) : Manager :=
  ⟨cache_enabled,
   if cache_enabled then some (DictionaryCache.init 5000 3600 (86400 * 7))
   else none,
   [], 0, 0, [], [], 5, 300⟩

/-- Translation of `DictionaryServiceManager.register_service`. -/
def Manager.register_service (m : Manager) (name : String) (priority : Nat)
    (enabled : Bool) (now : Int) : Manager :=
  { m with
    services := dictInsert m.services name
      ⟨priority, if enabled then .active else .disabled, 0, none, now, 0, 0⟩,
    service_calls := dictInsert m.service_calls name 0,
    service_failures := dictInsert m.service_failures name 0 }

/-- Stable insertion used to model Python's stable `sorted` by priority
value: an element goes in front of the first strictly-later-or-equal
priority already present, keeping registration order among equals. -/
def insertByPriority (x : String × ServiceInfo) :
    List (String × ServiceInfo) → List (String × ServiceInfo)
  | [] => [x]
  | y :: ys =>
    if x.2.priority ≤ y.2.priority then x :: y :: ys
    else y :: insertByPriority x ys

/-- Stable sort of the service registry by priority value. -/
def sortByPriority : List (String × ServiceInfo) → List (String × ServiceInfo)
  | [] => []
  | x :: xs => insertByPriority x (sortByPriority xs)

/-- Translation of `DictionaryServiceManager._get_services_by_priority`:
names of the services by ascending priority value, ties broken by
registration order (Python `sorted` is stable). -/
def Manager.get_services_by_priority (m : Manager) : List String :=
  dictKeys (sortByPriority m.services)

/-- Translation of `DictionaryServiceManager._is_service_available`:
unknown and disabled services are unavailable; a failed service recovers
(status `ACTIVE`, failure count 0) when `now - last_failure` exceeds
`recovery_time`, and is otherwise unavailable; all other statuses are
available. -/
def Manager.is_service_available (m : Manager) (name : String)
    (now : Int) : Bool × Manager :=
  match dictLookup m.services name with
  | none => (false, m)
  | some info =>
    match info.status with
    | .disabled => (false, m)
    | .failed =>
      match info.last_failure with
      | some lf =>
        if now - lf > m.recovery_time then
          let info' : ServiceInfo := { info with status := .active, failure_count := 0 }
          (true, { m with services := dictInsert m.services name info' })
        else (false, m)
      | none => (false, m)
    | _ => (true, m)

/-- Increment of a `self.stats['service_calls']`-style counter dict
(`.get(name, 0) + 1`). -/
def bumpCounter (d : List (String × Nat)) (name : String) :
    List (String × Nat) :=
  dictInsert d name ((dictLookup d name).getD 0 + 1)

/-- Translation of `DictionaryServiceManager._record_success`: bump the
call counters, stamp `last_success`, reset the failure count and restore
a degraded service to active; always bump `stats['service_calls']`. -/
def Manager.record_success (m : Manager) (name : String) (now : Int) :
    Manager :=
  let m' := match dictLookup m.services name with
    | none => m
    | some info =>
      let info' := { info with
        successful_calls := info.successful_calls + 1,
        total_calls := info.total_calls + 1,
        last_success := now,
        failure_count := 0 }
      let info'' := if info'.status = ServiceStatus.degraded
        then { info' with status := .active } else info'
      { m with services := dictInsert m.services name info'' }
  { m' with service_calls := bumpCounter m'.service_calls name }

/-- Translation of `DictionaryServiceManager._record_failure`: bump the
failure count and `total_calls`, stamp `last_failure`, and derive the
status from the failure count against `failure_threshold` (full
threshold: failed; half threshold, integer division: degraded); always
bump `stats['service_failures']`. -/
def Manager.record_failure (m : Manager) (name : String) (now : Int) :
    Manager :=
  let m' := match dictLookup m.services name with
    | none => m
    | some info =>
      let fc := info.failure_count + 1
      let info' := { info with
        failure_count := fc,
        total_calls := info.total_calls + 1,
        last_failure := some now }
      let info'' :=
        if fc ≥ m.failure_threshold then { info' with status := .failed }
        else if fc ≥ m.failure_threshold / 2 then { info' with status := .degraded }
        else info'
      { m with services := dictInsert m.services name info'' }
  { m' with service_failures := bumpCounter m'.service_failures name }

/-- Cache write on a successful definition lookup: the code caches `if
self.cache_enabled and self.cache and result`. -/
def Manager.cacheSetDef (m : Manager) (word result : String) (now : Int) :
    Manager :=
  match m.cache with
  | some c =>
    if m.cache_enabled ∧ result ≠ "" then
      { m with cache := some (c.set_definition word result now) }
    else m
  | none => m

/-- Cache write on a successful pronunciation lookup. -/
def Manager.cacheSetPron (m : Manager) (word result : String) (now : Int) :
    Manager :=
  match m.cache with
  | some c =>
    if m.cache_enabled ∧ result ≠ "" then
      { m with cache := some (c.set_pronunciation word result now) }
    else m
  | none => m

/-- Provider behaviour for single-word lookups: given the service name
and the word, `some s` models the provider returning `s`, `none` models
a raised exception. -/
abbrev LookupBeh := String → String → Option String

/-- The provider loop of `get_definition`: walk the priority-ordered
service names, skip unavailable services, record success or failure, and
return the first result together with the manager state and the list of
services actually invoked. -/
def Manager.defLoop (m : Manager) (names : List String) (beh : LookupBeh)
    (word : String) (now : Int) (invoked : List String) :
    String × Manager × List String :=
  match names with
  | [] => ("", m, invoked)
  | name :: rest =>
    let av := m.is_service_available name now
    if av.1 then
      match beh name word with
      | some result =>
        let m2 := av.2.record_success name now
        let m3 := m2.cacheSetDef word result now
        (result, m3, invoked ++ [name])
      | none =>
        let m2 := av.2.record_failure name now
        m2.defLoop rest beh word now (invoked ++ [name])
    else
      av.2.defLoop rest beh word now invoked

/-- Cache read of `get_definition` (`if self.cache_enabled and
self.cache:` around `self.cache.get_definition(word)`). -/
def Manager.cacheGetDef (m : Manager) (word : String) (now : Int) :
    Option String × Manager :=
  if m.cache_enabled then
    match m.cache with
    | some c =>
      let r := c.get_definition word now
      (r.1, { m with cache := some r.2 })
    | none => (none, m)
  else (none, m)

/-- Translation of `DictionaryServiceManager.get_definition`: empty word
short-circuits to `""`; otherwise bump `total_requests`, try the cache
(bumping `cache_hits` on a hit), then run the provider loop. The third
component lists the providers that were invoked. -/
def Manager.get_definition (m : Manager) (beh : LookupBeh) (word : String)
    (now : Int) : String × Manager × List String :=
  if word = "" then ("", m, [])
  else
    let m1 := { m with total_requests := m.total_requests + 1 }
    let r := m1.cacheGetDef word now
    match r.1 with
    | some v => (v, { r.2 with cache_hits := r.2.cache_hits + 1 }, [])
    | none => r.2.defLoop (r.2.get_services_by_priority) beh word now []

/-- The provider loop of `get_pronunciation` (same shape as `defLoop`
with the pronunciation cache write). -/
def Manager.pronLoop (m : Manager) (names : List String) (beh : LookupBeh)
    (word : String) (now : Int) (invoked : List String) :
    String × Manager × List String :=
  match names with
  | [] => ("", m, invoked)
  | name :: rest =>
    let av := m.is_service_available name now
    if av.1 then
      match beh name word with
      | some result =>
        let m2 := av.2.record_success name now
        let m3 := m2.cacheSetPron word result now
        (result, m3, invoked ++ [name])
      | none =>
        let m2 := av.2.record_failure name now
        m2.pronLoop rest beh word now (invoked ++ [name])
    else
      av.2.pronLoop rest beh word now invoked

/-- Cache read of `get_pronunciation`. -/
def Manager.cacheGetPron (m : Manager) (word : String) (now : Int) :
    Option String × Manager :=
  if m.cache_enabled then
    match m.cache with
    | some c =>
      let r := c.get_pronunciation word now
      (r.1, { m with cache := some r.2 })
    | none => (none, m)
  else (none, m)

/-- Translation of `DictionaryServiceManager.get_pronunciation`. -/
def Manager.get_pronunciation (m : Manager) (beh : LookupBeh)
    (word : String) (now : Int) : String × Manager × List String :=
  if word = "" then ("", m, [])
  else
    let m1 := { m with total_requests := m.total_requests + 1 }
    let r := m1.cacheGetPron word now
    match r.1 with
    | some v => (v, { r.2 with cache_hits := r.2.cache_hits + 1 }, [])
    | none => r.2.pronLoop (r.2.get_services_by_priority) beh word now []

/-! ## batch_lookup (manager.py, DictionaryServiceManager.batch_lookup) -/

/-- Provider behaviour for batch lookups: given the service name and the
word list, `some` models the returned `Dict[str, WordInfo]` (as a list
of its items), `none` a raised exception. -/
abbrev BatchBeh := String → List String → Option (List (String × WordInfo))

/-- Cache read of the batch cache phase (`self.cache.get_word_info`). -/
def Manager.cacheGetWordInfo (m : Manager) (word : String) (now : Int) :
    Option (String × String) × Manager :=
  match m.cache with
  | some c =>
    let r := c.get_word_info word now
    (r.1, { m with cache := some r.2 })
  | none => (none, m)

/-- One step of the cache phase of `batch_lookup`: a complete cache hit
adds a `WordInfo` (found flags defaulting to `True`) to the result and
bumps `cache_hits`; otherwise the word joins `uncached_words`. -/
def batchCacheStep (now : Int)
    (acc : List (String × WordInfo) × List String × Manager)
    (word : String) : List (String × WordInfo) × List String × Manager :=
  let r := acc.2.2.cacheGetWordInfo word now
  match r.1 with
  | some dp =>
    (dictInsert acc.1 word (mkWordInfo word dp.1 dp.2 true true),
     acc.2.1,
     { r.2 with cache_hits := r.2.cache_hits + 1 })
  | none => (acc.1, acc.2.1 ++ [word], r.2)

/-- The cache phase of `batch_lookup`: with the cache enabled and
present, split the input words into cache-resolved results and
`uncached_words`; otherwise every word is uncached. -/
def Manager.batchCachePhase (m : Manager) (words : List String)
    (now : Int) : List (String × WordInfo) × List String × Manager :=
  if m.cache_enabled ∧ m.cache.isSome then
    words.foldl (batchCacheStep now) ([], [], m)
  else ([], words, m)

/-- Cache write of the batch provider phase (`self.cache.set_word_info`
under `if self.cache_enabled and self.cache:`). -/
def Manager.cacheSetWordInfo (m : Manager) (word definition pronunciation : String)
    (now : Int) : Manager :=
  match m.cache with
  | some c =>
    if m.cache_enabled then
      { m with cache := some (c.set_word_info word definition pronunciation now) }
    else m
  | none => m

/-- Processing of one entry of a provider's batch result: entries with a
truthy definition or pronunciation are added to the result and cached,
the rest are dropped. -/
def batchEntryStep (now : Int)
    (acc : List (String × WordInfo) × Manager)
    (entry : String × WordInfo) : List (String × WordInfo) × Manager :=
  if entry.2.definition ≠ "" ∨ entry.2.pronunciation ≠ "" then
    (dictInsert acc.1 entry.1 entry.2,
     acc.2.cacheSetWordInfo entry.1 entry.2.definition entry.2.pronunciation now)
  else acc

/-- The provider phase of `batch_lookup`: walk the priority-ordered
services, skip unavailable ones; the first service whose batch call does
not raise has its truthy entries merged into the result, is recorded as
a success, and the loop breaks; a raising service is recorded as a
failure. -/
def Manager.batchLoop (m : Manager) (names : List String) (bbeh : BatchBeh)
    (uncached : List String) (now : Int)
    (result : List (String × WordInfo)) (invoked : List String) :
    List (String × WordInfo) × Manager × List String :=
  match names with
  | [] => (result, m, invoked)
  | name :: rest =>
    let av := m.is_service_available name now
    if av.1 then
      match bbeh name uncached with
      | some batch_result =>
        let step := batch_result.foldl (batchEntryStep now) (result, av.2)
        (step.1, step.2.record_success name now, invoked ++ [name])
      | none =>
        (av.2.record_failure name now).batchLoop rest bbeh uncached now result
          (invoked ++ [name])
    else
      av.2.batchLoop rest bbeh uncached now result invoked

/-- Combination of the cache and provider phases of `batch_lookup`: the
result map before the final fill loop. -/
def Manager.batchResolved (m : Manager) (bbeh : BatchBeh)
    (words : List String) (now : Int) :
    List (String × WordInfo) × Manager × List String :=
  let cp := m.batchCachePhase words now
  if cp.2.1 ≠ [] then
    cp.2.2.batchLoop (cp.2.2.get_services_by_priority) bbeh cp.2.1 now cp.1 []
  else (cp.1, cp.2.2, [])

/-- The final fill loop of `batch_lookup`: every input word still
missing from the result map gets an empty `WordInfo` with
`found_definition=False, found_pronunciation=False`. -/
def batchFill (result : List (String × WordInfo)) (words : List String) :
    List (String × WordInfo) :=
  words.foldl
    (fun res word =>
      match dictLookup res word with
      | some _ => res
      | none => dictInsert res word (mkWordInfo word "" "" false false))
    result

/-- Translation of `DictionaryServiceManager.batch_lookup`: empty input
short-circuits; otherwise cache phase, provider phase, then the fill
loop that guarantees every input word a result entry. -/
def Manager.batch_lookup (m : Manager) (bbeh : BatchBeh)
    (words : List String) (now : Int) :
    List (String × WordInfo) × Manager × List String :=
  if words = [] then ([], m, [])
  else
    let rp := m.batchResolved bbeh words now
    (batchFill rp.1 words, rp.2.1, rp.2.2)

/-! ## C4: provider health state machine -/

/-- Iterated consecutive failure recording for one service. -/
def Manager.failures (m : Manager) (name : String) (now : Int) : Nat → Manager
  | 0 => m
  | k + 1 => (m.failures name now k).record_failure name now

/-- The status a service reaches after `k` consecutive failures from a
clean active state, as a function of the threshold. -/
def statusAfter (threshold k : Nat) : ServiceStatus :=
  if threshold ≤ k then .failed
  else if threshold / 2 ≤ k then .degraded
  else .active

/-! ## Read-only views of the tiers -/

/-- Read-only view of a memory-tier lookup: the value of an unexpired
entry, without the lazy-deletion and LRU side effects of `get`. -/
def MemoryCache.lookupValid (m : MemoryCache) (key : String) (now : Int) :
    Option String :=
  match dictLookup m.cache key with
  | some e => if e.is_expired now then none else some e.data
  | none => none

/-- Read-only view of a persistent-tier lookup. -/
def PersistentCache.lookupValid (p : PersistentCache) (key : String)
    (now : Int) : Option String :=
  match dictLookup p.cache key with
  | some e => if e.is_expired now then none else some e.data
  | none => none

/-- Well-formedness invariant of a `MemoryCache`: the entry dict and the
LRU dict hold exactly the same keys in the same order, without
duplicates. -/
def MemInv (m : MemoryCache) : Prop :=
  dictKeys m.cache = dictKeys m.access_order ∧ dictNodup m.cache

instance (m : MemoryCache) : Decidable (MemInv m) := by
  unfold MemInv
  infer_instance

/-- Client-visible operations of the memory tier. -/
inductive MemOp where
  | get (key : String) (now : Int)
  | set (key value : String) (ttl : Option Int) (now : Int)
  | delete (key : String)

/-- Application of one memory-tier operation (result values dropped). -/
def applyOp (m : MemoryCache) : MemOp → MemoryCache
  | .get key now => (m.get key now).2
  | .set key value ttl now => m.set key value ttl now
  | .delete key => (m.delete key).2

/-- Sequential execution of memory-tier operations. -/
def runOps (m : MemoryCache) : List MemOp → MemoryCache
  | [] => m
  | op :: ops => runOps (applyOp m op) ops

/-! ## C2: repeated lookups are answered from the cache -/

/-- Nonnegative (or absent) TTL configuration: under it an entry written
at `now` is not already expired at `now` (the claim's "no intervening
expiry" premise). -/
def ttlOk (o : Option Int) : Prop :=
  ∀ t, o = some t → 0 ≤ t

instance (o : Option Int) : Decidable (ttlOk o) := by
  unfold ttlOk
  cases o with
  | none => exact isTrue (by intro t h; cases h)
  | some t =>
    by_cases h : 0 ≤ t
    · exact isTrue (by intro u hu; cases hu; exact h)
    · exact isFalse (fun hh => h (hh t rfl))

/-- Concrete manager used in the C2 evaluation: caching enabled, one
registered fallback provider. -/
def mgrW : Manager := (Manager.init true).register_service "s" 3 true 0

/-- Provider behaviour that always returns the empty string. -/
def behEmpty : LookupBeh := fun _ _ => some ""

/-- Provider behaviour that always returns "hi". -/
def behHello : LookupBeh := fun _ _ => some "hi"

/-! ## C7: word-info pairs and partial cache hits -/

/-- Validity view of an optional cache entry. -/
def entryValid (o : Option CacheEntry) (now : Int) : Option String :=
  match o with
  | some e => if e.is_expired now then none else some e.data
  | none => none

/-- Presence of a definition for `word` anywhere in the tiered cache
(unexpired), read without side effects. -/
def DictionaryCache.defPresent (c : DictionaryCache) (word : String)
    (now : Int) : Bool :=
  (c.memory_cache.lookupValid (make_key word "definition") now).isSome ||
  (c.persistent_cache.lookupValid (make_key word "definition") now).isSome

/-- Presence of a pronunciation for `word` anywhere in the tiered cache
(unexpired), read without side effects. -/
def DictionaryCache.pronPresent (c : DictionaryCache) (word : String)
    (now : Int) : Bool :=
  (c.memory_cache.lookupValid (make_key word "pronunciation") now).isSome ||
  (c.persistent_cache.lookupValid (make_key word "pronunciation") now).isSome

/-- Cache state reached through the public write/read API that holds a
memory-only pronunciation and a persistent-only definition for "test":
memory size 2, memory TTL 1000, persistent TTL 3; set the
pronunciation at t=0, the definition at t=1, touch the pronunciation at
t=2, and insert another word's definition at t=3 (evicting the
definition of "test" from the memory tier). -/
def ccx : DictionaryCache :=
  ((((DictionaryCache.init 2 1000 3).set_pronunciation "test" "p" 0).set_definition "test" "d" 1).get_pronunciation "test" 2).2.set_definition "x" "dx" 3

/-- Concrete cache used in the C7 witness: both fields of "w" written
through the public API. -/
def ccw : DictionaryCache :=
  (DictionaryCache.init 5 100 50).set_word_info "w" "d" "p" 0

/-- Concrete cache-disabled manager with one registered provider for
the C9 evaluation. -/
def mgr9 : Manager := (Manager.init false).register_service "s" 3 true 0

/-- Batch behaviour returning a record with a definition but an empty
pronunciation (found flags at their dataclass defaults `True`). -/
def bb9 : BatchBeh := fun _ _ => some [("test", mkWordInfo "test" "x" "" true true)]

/-- Batch behaviour returning a fully-populated record. -/
def bb9n : BatchBeh := fun _ _ => some [("test", mkWordInfo "test" "x" "y" true true)]

/-! ## Lemmas about the dict primitives -/

theorem dictLookup_insert_self {α : Type} (d : List (String × α)) (k : String)
    (v : α) : dictLookup (dictInsert d k v) k = some v := by
  induction d with
  | nil => simp [dictInsert, dictLookup]
  | cons p ps ih =>
    by_cases h : p.1 = k
    · simp [dictInsert, h, dictLookup]
    · simp [dictInsert, h, dictLookup, ih]

theorem dictDelete_cons {α : Type} (p : String × α) (ps : List (String × α))
    (k : String) :
    dictDelete (p :: ps) k =
      if p.1 = k then dictDelete ps k else p :: dictDelete ps k := by
  by_cases hp : p.1 = k <;> simp [dictDelete, List.filter_cons, hp]

theorem dictInsert_cons {α : Type} (p : String × α) (ps : List (String × α))
    (k : String) (v : α) :
    dictInsert (p :: ps) k v =
      if p.1 = k then (k, v) :: ps else p :: dictInsert ps k v := rfl

theorem dictLookup_cons {α : Type} (p : String × α) (ps : List (String × α))
    (k : String) :
    dictLookup (p :: ps) k = if p.1 = k then some p.2 else dictLookup ps k := rfl

theorem dictLookup_insert_ne {α : Type} (d : List (String × α))
    (k k' : String) (v : α) (h : k' ≠ k) :
    dictLookup (dictInsert d k v) k' = dictLookup d k' := by
  have h' : ¬(k = k') := fun e => h e.symm
  induction d with
  | nil => simp [dictInsert, dictLookup, h']
  | cons p ps ih =>
    rw [dictInsert_cons, dictLookup_cons]
    by_cases hp : p.1 = k
    · rw [if_pos hp, dictLookup_cons, if_neg h']
      have hpk : ¬(p.1 = k') := by rw [hp]; exact h'
      rw [if_neg hpk]
    · rw [if_neg hp, dictLookup_cons]
      by_cases hp' : p.1 = k'
      · rw [if_pos hp', if_pos hp']
      · rw [if_neg hp', if_neg hp', ih]

theorem dictLookup_delete_self {α : Type} (d : List (String × α))
    (k : String) : dictLookup (dictDelete d k) k = none := by
  induction d with
  | nil => rfl
  | cons p ps ih =>
    rw [dictDelete_cons]
    by_cases hp : p.1 = k
    · simpa [hp] using ih
    · simpa [hp, dictLookup] using ih

theorem dictLookup_delete_ne {α : Type} (d : List (String × α))
    (k k' : String) (h : k' ≠ k) :
    dictLookup (dictDelete d k) k' = dictLookup d k' := by
  induction d with
  | nil => rfl
  | cons p ps ih =>
    rw [dictDelete_cons, dictLookup_cons]
    by_cases hp : p.1 = k
    · have hp' : ¬(p.1 = k') := by rw [hp]; exact fun e => h e.symm
      rw [if_pos hp, if_neg hp', ih]
    · rw [if_neg hp, dictLookup_cons]
      by_cases hp' : p.1 = k'
      · rw [if_pos hp', if_pos hp']
      · rw [if_neg hp', if_neg hp', ih]

theorem dictLookup_eq_none_iff {α : Type} (d : List (String × α))
    (k : String) : dictLookup d k = none ↔ k ∉ dictKeys d := by
  induction d with
  | nil => simp [dictLookup, dictKeys]
  | cons p ps ih =>
    by_cases h : p.1 = k
    · simp [dictLookup, h, dictKeys]
    · have h2 : ¬(k = p.1) := fun e => h e.symm
      simp [dictLookup, h, dictKeys, ih, h2]

theorem dictLookup_isSome_iff {α : Type} (d : List (String × α))
    (k : String) : (dictLookup d k).isSome = true ↔ k ∈ dictKeys d := by
  rw [← Decidable.not_iff_not, ← dictLookup_eq_none_iff]
  cases dictLookup d k <;> simp

theorem dictKeys_insert_mem {α : Type} (d : List (String × α)) (k : String)
    (v : α) (h : k ∈ dictKeys d) :
    dictKeys (dictInsert d k v) = dictKeys d := by
  induction d with
  | nil => simp [dictKeys] at h
  | cons p ps ih =>
    by_cases hp : p.1 = k
    · simp [dictInsert, hp, dictKeys]
    · have hkp : ¬(k = p.1) := fun e => hp e.symm
      have h' : k ∈ dictKeys ps := by
        simpa [dictKeys, hkp] using h
      have hih := ih h'
      simp only [dictKeys] at hih
      simp [dictInsert, hp, dictKeys, hih]

theorem dictKeys_insert_new {α : Type} (d : List (String × α)) (k : String)
    (v : α) (h : k ∉ dictKeys d) :
    dictKeys (dictInsert d k v) = dictKeys d ++ [k] := by
  induction d with
  | nil => simp [dictInsert, dictKeys]
  | cons p ps ih =>
    by_cases hp : p.1 = k
    · exact absurd (by simp [dictKeys, hp]) h
    · have h' : k ∉ dictKeys ps := fun hm => h (by simp [dictKeys] at hm ⊢; exact Or.inr hm)
      have hih := ih h'
      simp only [dictKeys] at hih
      simp [dictInsert, hp, dictKeys, hih]

theorem dictKeys_delete {α : Type} (d : List (String × α)) (k : String) :
    dictKeys (dictDelete d k) = (dictKeys d).filter (fun x => x ≠ k) := by
  induction d with
  | nil => simp [dictDelete, dictKeys]
  | cons p ps ih =>
    by_cases hp : p.1 = k
    · simpa [dictDelete, List.filter, hp, dictKeys] using ih
    · simpa [dictDelete, List.filter, hp, dictKeys] using ih

theorem dictNodup_insert {α : Type} (d : List (String × α)) (k : String)
    (v : α) (h : dictNodup d) : dictNodup (dictInsert d k v) := by
  by_cases hm : k ∈ dictKeys d
  · unfold dictNodup
    rw [dictKeys_insert_mem d k v hm]
    exact h
  · unfold dictNodup
    rw [dictKeys_insert_new d k v hm]
    simpa [List.nodup_append] using ⟨h, hm⟩

theorem dictNodup_delete {α : Type} (d : List (String × α)) (k : String)
    (h : dictNodup d) : dictNodup (dictDelete d k) := by
  unfold dictNodup
  rw [dictKeys_delete]
  exact h.filter _

theorem dictKeys_length {α : Type} (d : List (String × α)) :
    (dictKeys d).length = d.length := by
  simp [dictKeys]

theorem dictInsert_length_mem {α : Type} (d : List (String × α)) (k : String)
    (v : α) (h : k ∈ dictKeys d) :
    (dictInsert d k v).length = d.length := by
  have h3 := dictKeys_insert_mem d k v h
  have h1 := dictKeys_length (dictInsert d k v)
  have h2 := dictKeys_length d
  rw [h3, h2] at h1
  exact h1.symm

theorem dictInsert_length_new {α : Type} (d : List (String × α)) (k : String)
    (v : α) (h : k ∉ dictKeys d) :
    (dictInsert d k v).length = d.length + 1 := by
  have h3 := dictKeys_insert_new d k v h
  have h1 := dictKeys_length (dictInsert d k v)
  have h2 := dictKeys_length d
  rw [h3] at h1
  simp at h1
  omega

/-! ## Lemmas about the LRU minimum -/

theorem minAccAux_mem (best : String × Int) (l : List (String × Int)) :
    minAccAux best l = best ∨ minAccAux best l ∈ l := by
  induction l generalizing best with
  | nil => exact Or.inl rfl
  | cons p ps ih =>
    unfold minAccAux
    by_cases h : p.2 < best.2
    · rw [if_pos h]
      rcases ih p with h1 | h1
      · exact Or.inr (by rw [h1]; exact List.mem_cons_self p ps)
      · exact Or.inr (List.mem_cons_of_mem p h1)
    · rw [if_neg h]
      rcases ih best with h1 | h1
      · exact Or.inl h1
      · exact Or.inr (List.mem_cons_of_mem p h1)

theorem minAccAux_le (best : String × Int) (l : List (String × Int)) :
    (minAccAux best l).2 ≤ best.2 ∧ ∀ q ∈ l, (minAccAux best l).2 ≤ q.2 := by
  induction l generalizing best with
  | nil => exact ⟨le_refl _, by intro q hq; cases hq⟩
  | cons p ps ih =>
    unfold minAccAux
    by_cases h : p.2 < best.2
    · rw [if_pos h]
      rcases ih p with ⟨h1, h2⟩
      refine ⟨le_trans h1 (le_of_lt h), ?_⟩
      intro q hq
      rcases List.mem_cons.mp hq with rfl | hq'
      · exact h1
      · exact h2 q hq'
    · rw [if_neg h]
      rcases ih best with ⟨h1, h2⟩
      refine ⟨h1, ?_⟩
      intro q hq
      rcases List.mem_cons.mp hq with rfl | hq'
      · exact le_trans h1 (not_lt.mp h)
      · exact h2 q hq'

theorem minAcc_mem (l : List (String × Int)) (p : String × Int)
    (h : minAcc l = some p) : p ∈ l := by
  cases l with
  | nil => cases h
  | cons q qs =>
    unfold minAcc at h
    injection h with h
    rcases minAccAux_mem q qs with h1 | h1
    · rw [← h, h1]; exact List.mem_cons_self q qs
    · rw [← h]; exact List.mem_cons_of_mem q h1

theorem minAcc_le (l : List (String × Int)) (p : String × Int)
    (h : minAcc l = some p) : ∀ q ∈ l, p.2 ≤ q.2 := by
  cases l with
  | nil => cases h
  | cons r rs =>
    unfold minAcc at h
    injection h with h
    intro q hq
    rcases List.mem_cons.mp hq with h1 | hq'
    · rw [← h, h1]; exact (minAccAux_le r rs).1
    · rw [← h]; exact (minAccAux_le r rs).2 q hq'

theorem minAcc_eq_none_iff (l : List (String × Int)) :
    minAcc l = none ↔ l = [] := by
  cases l <;> simp [minAcc]

/-! ## C6: CacheEntry expiry and the MemoryTier TTL boundary -/

/-- C6: `isExpired()` returns true iff the TTL is set and
`now - createdAt > ttl`; an entry stored in the memory tier with
`ttl = t` at time `n0` is still returned by `get` at every time strictly
before `n0 + t`, and at every time strictly after `n0 + t` it is absent:
`get` returns nothing and the entry has been removed from the tier. -/
theorem cacheEntry_expiry_boundary :
    (∀ (e : CacheEntry) (now : Int),
      e.is_expired now = true ↔ ∃ t, e.ttl = some t ∧ now - e.timestamp > t) ∧
    (∀ (m : MemoryCache) (k v : String) (t n0 n : Int),
      n < n0 + t → ((m.set k v (some t) n0).get k n).1 = some v) ∧
    (∀ (m : MemoryCache) (k v : String) (t n0 n : Int),
      n > n0 + t →
        ((m.set k v (some t) n0).get k n).1 = none ∧
        dictLookup ((m.set k v (some t) n0).get k n).2.cache k = none) := by
  refine ⟨?_, ?_, ?_⟩
  · intro e now
    unfold CacheEntry.is_expired
    cases h : e.ttl with
    | none => simp
    | some t => simp [h]
  · intro m k v t n0 n h
    have hnx : (CacheEntry.mk v n0 (some t)).is_expired n = false := by
      simp [CacheEntry.is_expired]
      omega
    unfold MemoryCache.set MemoryCache.get
    simp only [dictLookup_insert_self, hnx]
    rfl
  · intro m k v t n0 n h
    have hex : (CacheEntry.mk v n0 (some t)).is_expired n = true := by
      simp [CacheEntry.is_expired]
      omega
    unfold MemoryCache.set MemoryCache.get
    simp only [dictLookup_insert_self, hex]
    exact ⟨rfl, dictLookup_delete_self _ _⟩

/-- Witness for C6: the TTL boundary evaluated on a concrete tier, entry
and times. -/
theorem cacheEntry_expiry_boundary_witness :
    (((MemoryCache.init 10 none).set "k" "v" (some 5) 0).get "k" 4).1 = some "v" ∧
    ((((MemoryCache.init 10 none).set "k" "v" (some 5) 0).get "k" 6).1 = none ∧
      dictLookup ((((MemoryCache.init 10 none).set "k" "v" (some 5) 0).get "k" 6).2).cache "k" = none) :=
  ⟨cacheEntry_expiry_boundary.2.1 (MemoryCache.init 10 none) "k" "v" 5 0 4 (by decide),
   cacheEntry_expiry_boundary.2.2 (MemoryCache.init 10 none) "k" "v" 5 0 6 (by decide)⟩

/-! ## C10: empty-word short circuit -/

/-- C10: for the empty-string word (the only falsy `str` value),
`get_definition` and `get_pronunciation` return `""` immediately, leave
the manager state unchanged (so neither cache tier is consulted and
neither `total_requests` nor `cache_hits` moves), and invoke no
provider. -/
theorem empty_word_short_circuit (m : Manager) (beh : LookupBeh) (now : Int) :
    m.get_definition beh "" now = ("", m, []) ∧
    m.get_pronunciation beh "" now = ("", m, []) := by
  constructor <;> rfl

/-- Effect of `_record_failure` on the entry of the failing service. -/
theorem record_failure_lookup (m : Manager) (name : String) (now : Int)
    (info : ServiceInfo) (h : dictLookup m.services name = some info) :
    dictLookup (m.record_failure name now).services name =
      some (if info.failure_count + 1 ≥ m.failure_threshold then
              { info with failure_count := info.failure_count + 1,
                          total_calls := info.total_calls + 1,
                          last_failure := some now, status := .failed }
            else if info.failure_count + 1 ≥ m.failure_threshold / 2 then
              { info with failure_count := info.failure_count + 1,
                          total_calls := info.total_calls + 1,
                          last_failure := some now, status := .degraded }
            else
              { info with failure_count := info.failure_count + 1,
                          total_calls := info.total_calls + 1,
                          last_failure := some now }) := by
  unfold Manager.record_failure
  rw [h]
  by_cases h1 : info.failure_count + 1 ≥ m.failure_threshold
  · simp [h1, dictLookup_insert_self]
  · by_cases h2 : info.failure_count + 1 ≥ m.failure_threshold / 2
    · simp [h1, h2, dictLookup_insert_self]
    · simp [h1, h2, dictLookup_insert_self]

/-- Effect of `_record_success` on the entry of the succeeding service. -/
theorem record_success_lookup (m : Manager) (name : String) (now : Int)
    (info : ServiceInfo) (h : dictLookup m.services name = some info) :
    dictLookup (m.record_success name now).services name =
      some (if info.status = ServiceStatus.degraded then
              { info with successful_calls := info.successful_calls + 1,
                          total_calls := info.total_calls + 1,
                          last_success := now, failure_count := 0,
                          status := .active }
            else
              { info with successful_calls := info.successful_calls + 1,
                          total_calls := info.total_calls + 1,
                          last_success := now, failure_count := 0 }) := by
  unfold Manager.record_success
  rw [h]
  by_cases h1 : info.status = ServiceStatus.degraded
  · simp [h1, dictLookup_insert_self]
  · simp [h1, dictLookup_insert_self]

/-- Recording a failure leaves the configured threshold unchanged. -/
theorem record_failure_threshold (m : Manager) (name : String) (now : Int) :
    (m.record_failure name now).failure_threshold = m.failure_threshold := by
  unfold Manager.record_failure
  cases dictLookup m.services name <;> rfl

/-- Characterisation of the service entry after `k` consecutive
failures: the failure count is `k` and the status is `statusAfter`. -/
theorem failures_lookup (m : Manager) (name : String) (now : Int)
    (info : ServiceInfo) (h : dictLookup m.services name = some info)
    (h0 : info.failure_count = 0) (ha : info.status = ServiceStatus.active)
    (ht : 2 ≤ m.failure_threshold) :
    ∀ k, ∃ i, dictLookup ((m.failures name now k)).services name = some i ∧
      i.failure_count = k ∧ i.status = statusAfter m.failure_threshold k ∧
      (m.failures name now k).failure_threshold = m.failure_threshold := by
  intro k
  induction k with
  | zero =>
    refine ⟨info, h, h0, ?_, rfl⟩
    unfold statusAfter
    rw [if_neg (by omega), if_neg (by omega)]
    exact ha.symm ▸ rfl
  | succ k ih =>
    rcases ih with ⟨i, hi, hfc, hst, hth⟩
    have hlk := record_failure_lookup (m.failures name now k) name now i hi
    rw [hth, hfc] at hlk
    unfold Manager.failures
    by_cases h1 : k + 1 ≥ m.failure_threshold
    · rw [if_pos h1] at hlk
      refine ⟨_, hlk, rfl, ?_, ?_⟩
      · unfold statusAfter
        rw [if_pos (by omega)]
      · rw [record_failure_threshold, hth]
    · rw [if_neg h1] at hlk
      by_cases h2 : k + 1 ≥ m.failure_threshold / 2
      · rw [if_pos h2] at hlk
        refine ⟨_, hlk, rfl, ?_, ?_⟩
        · unfold statusAfter
          rw [if_neg (by omega), if_pos (by omega)]
        · rw [record_failure_threshold, hth]
      · rw [if_neg h2] at hlk
        refine ⟨_, hlk, by simp [hfc], ?_, ?_⟩
        · unfold statusAfter
          rw [if_neg (by omega), if_neg (by omega)]
          rw [hst]
          unfold statusAfter
          rw [if_neg (by omega), if_neg (by omega)]
        · rw [record_failure_threshold, hth]

/-- C4: starting from `failureCount = 0` and status Active, `k`
consecutive recorded failures leave the provider Active while
`k < threshold/2` (integer division), Degraded once `threshold/2 ≤ k <
threshold`, and Failed once `k ≥ threshold` — so the status moves to
Degraded exactly when the count reaches `⌊threshold/2⌋` and to Failed
exactly when it reaches `threshold` (default 5); and recording a single
success at any point resets the failure count to 0 and turns a Degraded
provider Active. -/
theorem provider_state_machine (m : Manager) (name : String)
    (info : ServiceInfo) (now : Int)
    (h : dictLookup m.services name = some info)
    (h0 : info.failure_count = 0) (ha : info.status = ServiceStatus.active)
    (ht : 2 ≤ m.failure_threshold) :
    (∀ k, (dictLookup ((m.failures name now k)).services name).map
        (fun i => (i.failure_count, i.status)) =
      some (k, if m.failure_threshold ≤ k then ServiceStatus.failed
               else if m.failure_threshold / 2 ≤ k then ServiceStatus.degraded
               else ServiceStatus.active)) ∧
    (∀ (m' : Manager) (i : ServiceInfo),
      dictLookup m'.services name = some i →
      (dictLookup ((m'.record_success name now)).services name).map
          ServiceInfo.failure_count = some 0 ∧
      (i.status = ServiceStatus.degraded →
        (dictLookup ((m'.record_success name now)).services name).map
          ServiceInfo.status = some ServiceStatus.active)) := by
  constructor
  · intro k
    rcases failures_lookup m name now info h h0 ha ht k with ⟨i, hi, hfc, hst, _⟩
    rw [hi, Option.map_some', hfc, hst]
    rfl
  · intro m' i hi
    have hlk := record_success_lookup m' name now i hi
    by_cases h1 : i.status = ServiceStatus.degraded
    · rw [if_pos h1] at hlk
      rw [hlk]
      exact ⟨rfl, fun _ => rfl⟩
    · rw [if_neg h1] at hlk
      rw [hlk]
      exact ⟨rfl, fun hc => absurd hc h1⟩

/-- Witness for C4: a concrete manager with the default threshold 5 and
one registered provider, evaluated after three consecutive failures
(degraded) and after a success from the degraded state. -/
theorem provider_state_machine_witness :
    ((dictLookup (((((Manager.init false).register_service "s" 1 true 0)).failures "s" 1 3)).services "s").map
        (fun i => (i.failure_count, i.status)) =
      some (3, if (5 : Nat) ≤ 3 then ServiceStatus.failed
               else if (5 : Nat) / 2 ≤ 3 then ServiceStatus.degraded
               else ServiceStatus.active)) ∧
    ((dictLookup ((((((Manager.init false).register_service "s" 1 true 0)).failures "s" 1 2)).record_success "s" 9).services "s").map
        ServiceInfo.failure_count = some 0 ∧
      (ServiceInfo.mk 1 ServiceStatus.degraded 2 (some 1) 0 2 0).status = ServiceStatus.degraded →
        (dictLookup ((((((Manager.init false).register_service "s" 1 true 0)).failures "s" 1 2)).record_success "s" 9).services "s").map
          ServiceInfo.status = some ServiceStatus.active) := by
  have hm := provider_state_machine ((Manager.init false).register_service "s" 1 true 0)
    "s" (ServiceInfo.mk 1 ServiceStatus.active 0 none 0 0 0) 1 rfl rfl rfl (by decide)
  refine ⟨hm.1 3, ?_⟩
  have h2 := hm.2 ((((Manager.init false).register_service "s" 1 true 0)).failures "s" 1 2)
    (ServiceInfo.mk 1 ServiceStatus.degraded 2 (some 1) 0 2 0) (by decide)
  exact fun _ => (h2.2 rfl)

/-! ## C5: failed providers and the recovery window -/

/-- A failed service inside the recovery window is reported unavailable
and the manager state is untouched. -/
theorem is_service_available_failed_recent (m : Manager) (name : String)
    (now : Int) (info : ServiceInfo) (lf : Int)
    (hlk : dictLookup m.services name = some info)
    (hst : info.status = ServiceStatus.failed)
    (hlf : info.last_failure = some lf)
    (hrec : now - lf ≤ m.recovery_time) :
    m.is_service_available name now = (false, m) := by
  simp only [Manager.is_service_available, hlk, hst, hlf]
  rw [if_neg (by omega)]

/-- A failed service outside the recovery window is optimistically
recovered: reported available with status Active and failure count 0. -/
theorem is_service_available_failed_recover (m : Manager) (name : String)
    (now : Int) (info : ServiceInfo) (lf : Int)
    (hlk : dictLookup m.services name = some info)
    (hst : info.status = ServiceStatus.failed)
    (hlf : info.last_failure = some lf)
    (hrec : now - lf > m.recovery_time) :
    m.is_service_available name now = (true, { m with services := dictInsert m.services name ({ info with status := ServiceStatus.active, failure_count := 0 }) }) := by
  simp only [Manager.is_service_available, hlk, hst, hlf]
  rw [if_pos (by omega)]

/-- An availability check for one service does not move any other
service's registry entry, nor the recovery window. -/
theorem is_service_available_preserves (m : Manager) (n : String) (now : Int) :
    (m.is_service_available n now).2.recovery_time = m.recovery_time ∧
    ∀ name, name ≠ n →
      dictLookup (m.is_service_available n now).2.services name =
        dictLookup m.services name := by
  unfold Manager.is_service_available
  cases hl : dictLookup m.services n with
  | none => exact ⟨rfl, fun _ _ => rfl⟩
  | some info =>
    rcases info with ⟨prio, status, fc, lfo, ls, tc, sc⟩
    cases status with
    | disabled => exact ⟨rfl, fun _ _ => rfl⟩
    | active => exact ⟨rfl, fun _ _ => rfl⟩
    | degraded => exact ⟨rfl, fun _ _ => rfl⟩
    | failed =>
      cases lfo with
      | none => exact ⟨rfl, fun _ _ => rfl⟩
      | some lf =>
        by_cases h : now - lf > m.recovery_time
        · simp only [h, if_true]
          exact ⟨trivial, fun name hne => dictLookup_insert_ne _ _ _ _ hne⟩
        · simp only [h, if_false]
          exact ⟨trivial, fun _ _ => trivial⟩

/-- Recording a failure for one service does not move any other
service's registry entry, nor the recovery window. -/
theorem record_failure_preserves (m : Manager) (n : String) (now : Int) :
    (m.record_failure n now).recovery_time = m.recovery_time ∧
    ∀ name, name ≠ n →
      dictLookup (m.record_failure n now).services name =
        dictLookup m.services name := by
  unfold Manager.record_failure
  cases hl : dictLookup m.services n with
  | none => exact ⟨rfl, fun _ _ => rfl⟩
  | some info =>
    exact ⟨rfl, fun name hne => dictLookup_insert_ne _ _ _ _ hne⟩

/-- Recording a success for one service does not move any other
service's registry entry, nor the recovery window. -/
theorem record_success_preserves (m : Manager) (n : String) (now : Int) :
    (m.record_success n now).recovery_time = m.recovery_time ∧
    ∀ name, name ≠ n →
      dictLookup (m.record_success n now).services name =
        dictLookup m.services name := by
  unfold Manager.record_success
  cases hl : dictLookup m.services n with
  | none => exact ⟨rfl, fun _ _ => rfl⟩
  | some info =>
    exact ⟨rfl, fun name hne => dictLookup_insert_ne _ _ _ _ hne⟩

/-- The definition-side cache reads and writes leave the service
registry and the recovery window unchanged. -/
theorem cacheGetDef_preserves (m : Manager) (word : String) (now : Int) :
    (m.cacheGetDef word now).2.services = m.services ∧
    (m.cacheGetDef word now).2.recovery_time = m.recovery_time := by
  unfold Manager.cacheGetDef
  by_cases h : m.cache_enabled
  · rw [if_pos h]
    cases m.cache <;> exact ⟨rfl, rfl⟩
  · rw [if_neg h]
    exact ⟨rfl, rfl⟩

/-- The pronunciation-side cache read leaves the service registry and
the recovery window unchanged. -/
theorem cacheGetPron_preserves (m : Manager) (word : String) (now : Int) :
    (m.cacheGetPron word now).2.services = m.services ∧
    (m.cacheGetPron word now).2.recovery_time = m.recovery_time := by
  unfold Manager.cacheGetPron
  by_cases h : m.cache_enabled
  · rw [if_pos h]
    cases m.cache <;> exact ⟨rfl, rfl⟩
  · rw [if_neg h]
    exact ⟨rfl, rfl⟩

/-- The word-info cache read of the batch cache phase leaves the service
registry and the recovery window unchanged. -/
theorem cacheGetWordInfo_preserves (m : Manager) (word : String) (now : Int) :
    (m.cacheGetWordInfo word now).2.services = m.services ∧
    (m.cacheGetWordInfo word now).2.recovery_time = m.recovery_time := by
  unfold Manager.cacheGetWordInfo
  cases m.cache <;> exact ⟨rfl, rfl⟩

/-- The batch cache phase leaves the service registry and the recovery
window unchanged. -/
theorem batchCachePhase_preserves (m : Manager) (words : List String)
    (now : Int) :
    (m.batchCachePhase words now).2.2.services = m.services ∧
    (m.batchCachePhase words now).2.2.recovery_time = m.recovery_time := by
  unfold Manager.batchCachePhase
  by_cases h : m.cache_enabled ∧ m.cache.isSome
  · rw [if_pos h]
    suffices haux : ∀ (ws : List String)
        (acc : List (String × WordInfo) × List String × Manager),
        (ws.foldl (batchCacheStep now) acc).2.2.services = acc.2.2.services ∧
        (ws.foldl (batchCacheStep now) acc).2.2.recovery_time = acc.2.2.recovery_time by
      exact haux words ([], [], m)
    intro ws
    induction ws with
    | nil => exact fun acc => ⟨rfl, rfl⟩
    | cons w ws ih =>
      intro acc
      rw [List.foldl_cons]
      have hs : (batchCacheStep now acc w).2.2.services = acc.2.2.services ∧
          (batchCacheStep now acc w).2.2.recovery_time = acc.2.2.recovery_time := by
        unfold batchCacheStep
        cases hr : (acc.2.2.cacheGetWordInfo w now).1 with
        | some dp =>
          simp only [hr]
          exact ⟨(cacheGetWordInfo_preserves acc.2.2 w now).1,
                 (cacheGetWordInfo_preserves acc.2.2 w now).2⟩
        | none =>
          simp only [hr]
          exact ⟨(cacheGetWordInfo_preserves acc.2.2 w now).1,
                 (cacheGetWordInfo_preserves acc.2.2 w now).2⟩
      exact ⟨((ih _).1).trans hs.1, ((ih _).2).trans hs.2⟩
  · rw [if_neg h]
    exact ⟨rfl, rfl⟩

/-- A failed service inside the recovery window is never invoked by the
definition provider loop. -/
theorem defLoop_not_invoked (name : String) (info : ServiceInfo) (lf : Int)
    (beh : LookupBeh) (word : String) (now : Int) (names : List String)
    (hst : info.status = ServiceStatus.failed)
    (hlf : info.last_failure = some lf) :
    ∀ (m : Manager) (invoked : List String),
      name ∉ invoked →
      dictLookup m.services name = some info →
      now - lf ≤ m.recovery_time →
      name ∉ (m.defLoop names beh word now invoked).2.2 := by
  induction names with
  | nil =>
    intro m invoked hni _ _
    exact hni
  | cons n rest ih =>
    intro m invoked hni hlk hrec
    unfold Manager.defLoop
    by_cases hn : n = name
    · subst hn
      rw [is_service_available_failed_recent m n now info lf hlk hst hlf hrec]
      simp only [Bool.false_eq_true, if_false]
      exact ih m invoked hni hlk hrec
    · have hne : name ≠ n := fun e => hn e.symm
      have hpr := is_service_available_preserves m n now
      cases hav : (m.is_service_available n now).1 with
      | true =>
        rw [if_pos hav]
        cases hb : beh n word with
        | some r =>
          simp only [hb]
          intro hmem
          rcases List.mem_append.mp hmem with h1 | h1
          · exact hni h1
          · exact hne (List.mem_singleton.mp h1)
        | none =>
          simp only [hb]
          have hrf := record_failure_preserves (m.is_service_available n now).2 n now
          apply ih
          · intro hmem
            rcases List.mem_append.mp hmem with h1 | h1
            · exact hni h1
            · exact hne (List.mem_singleton.mp h1)
          · rw [hrf.2 name hne, hpr.2 name hne]
            exact hlk
          · rw [hrf.1, hpr.1]
            exact hrec
      | false =>
        rw [if_neg (by simp [hav])]
        apply ih
        · exact hni
        · rw [hpr.2 name hne]
          exact hlk
        · rw [hpr.1]
          exact hrec

/-- A failed service inside the recovery window is never invoked by the
pronunciation provider loop. -/
theorem pronLoop_not_invoked (name : String) (info : ServiceInfo) (lf : Int)
    (beh : LookupBeh) (word : String) (now : Int) (names : List String)
    (hst : info.status = ServiceStatus.failed)
    (hlf : info.last_failure = some lf) :
    ∀ (m : Manager) (invoked : List String),
      name ∉ invoked →
      dictLookup m.services name = some info →
      now - lf ≤ m.recovery_time →
      name ∉ (m.pronLoop names beh word now invoked).2.2 := by
  induction names with
  | nil =>
    intro m invoked hni _ _
    exact hni
  | cons n rest ih =>
    intro m invoked hni hlk hrec
    unfold Manager.pronLoop
    by_cases hn : n = name
    · subst hn
      rw [is_service_available_failed_recent m n now info lf hlk hst hlf hrec]
      simp only [Bool.false_eq_true, if_false]
      exact ih m invoked hni hlk hrec
    · have hne : name ≠ n := fun e => hn e.symm
      have hpr := is_service_available_preserves m n now
      cases hav : (m.is_service_available n now).1 with
      | true =>
        rw [if_pos hav]
        cases hb : beh n word with
        | some r =>
          simp only [hb]
          intro hmem
          rcases List.mem_append.mp hmem with h1 | h1
          · exact hni h1
          · exact hne (List.mem_singleton.mp h1)
        | none =>
          simp only [hb]
          have hrf := record_failure_preserves (m.is_service_available n now).2 n now
          apply ih
          · intro hmem
            rcases List.mem_append.mp hmem with h1 | h1
            · exact hni h1
            · exact hne (List.mem_singleton.mp h1)
          · rw [hrf.2 name hne, hpr.2 name hne]
            exact hlk
          · rw [hrf.1, hpr.1]
            exact hrec
      | false =>
        rw [if_neg (by simp [hav])]
        apply ih
        · exact hni
        · rw [hpr.2 name hne]
          exact hlk
        · rw [hpr.1]
          exact hrec

/-- A failed service inside the recovery window is never invoked by the
batch provider loop. -/
theorem batchLoop_not_invoked (name : String) (info : ServiceInfo) (lf : Int)
    (bbeh : BatchBeh) (uncached : List String) (now : Int)
    (names : List String)
    (hst : info.status = ServiceStatus.failed)
    (hlf : info.last_failure = some lf) :
    ∀ (m : Manager) (result : List (String × WordInfo))
      (invoked : List String),
      name ∉ invoked →
      dictLookup m.services name = some info →
      now - lf ≤ m.recovery_time →
      name ∉ (m.batchLoop names bbeh uncached now result invoked).2.2 := by
  induction names with
  | nil =>
    intro m result invoked hni _ _
    exact hni
  | cons n rest ih =>
    intro m result invoked hni hlk hrec
    unfold Manager.batchLoop
    by_cases hn : n = name
    · subst hn
      rw [is_service_available_failed_recent m n now info lf hlk hst hlf hrec]
      simp only [Bool.false_eq_true, if_false]
      exact ih m result invoked hni hlk hrec
    · have hne : name ≠ n := fun e => hn e.symm
      have hpr := is_service_available_preserves m n now
      cases hav : (m.is_service_available n now).1 with
      | true =>
        rw [if_pos hav]
        cases hb : bbeh n uncached with
        | some br =>
          simp only [hb]
          intro hmem
          rcases List.mem_append.mp hmem with h1 | h1
          · exact hni h1
          · exact hne (List.mem_singleton.mp h1)
        | none =>
          simp only [hb]
          have hrf := record_failure_preserves (m.is_service_available n now).2 n now
          apply ih
          · intro hmem
            rcases List.mem_append.mp hmem with h1 | h1
            · exact hni h1
            · exact hne (List.mem_singleton.mp h1)
          · rw [hrf.2 name hne, hpr.2 name hne]
            exact hlk
          · rw [hrf.1, hpr.1]
            exact hrec
      | false =>
        rw [if_neg (by simp [hav])]
        apply ih
        · exact hni
        · rw [hpr.2 name hne]
          exact hlk
        · rw [hpr.1]
          exact hrec

/-- C5: a provider in the Failed state with `now - lastFailureAt` at
most the recovery window (default 300 s) is excluded from routing: the
availability check reports false without touching the state, and no
single-word or batch lookup ever invokes it; once
`now - lastFailureAt` exceeds the window, the next availability check
resets its failure count to 0, sets it Active, and it is routable
again. -/
theorem failed_provider_recovery_window (m : Manager) (name : String)
    (info : ServiceInfo) (lf now : Int)
    (hlk : dictLookup m.services name = some info)
    (hst : info.status = ServiceStatus.failed)
    (hlf : info.last_failure = some lf) :
    (now - lf ≤ m.recovery_time →
      m.is_service_available name now = (false, m) ∧
      (∀ beh word, name ∉ (m.get_definition beh word now).2.2) ∧
      (∀ beh word, name ∉ (m.get_pronunciation beh word now).2.2) ∧
      (∀ bbeh words, name ∉ (m.batch_lookup bbeh words now).2.2)) ∧
    (now - lf > m.recovery_time →
      (m.is_service_available name now).1 = true ∧
      dictLookup ((m.is_service_available name now)).2.services name =
        some ({ info with status := ServiceStatus.active, failure_count := 0 }) ∧
      (((m.is_service_available name now)).2.is_service_available name now).1 = true) := by
  constructor
  · intro hrec
    refine ⟨is_service_available_failed_recent m name now info lf hlk hst hlf hrec,
      ?_, ?_, ?_⟩
    · intro beh word
      unfold Manager.get_definition
      by_cases hw : word = ""
      · rw [if_pos hw]
        simp
      · rw [if_neg hw]
        have hcg := cacheGetDef_preserves
          ({ m with total_requests := m.total_requests + 1 }) word now
        cases hr : (({ m with total_requests := m.total_requests + 1 } : Manager).cacheGetDef word now).1 with
        | some v =>
          simp only [hr]
          simp
        | none =>
          simp only [hr]
          apply defLoop_not_invoked name info lf beh word now _ hst hlf
          · simp
          · rw [hcg.1]
            exact hlk
          · rw [hcg.2]
            exact hrec
    · intro beh word
      unfold Manager.get_pronunciation
      by_cases hw : word = ""
      · rw [if_pos hw]
        simp
      · rw [if_neg hw]
        have hcg := cacheGetPron_preserves
          ({ m with total_requests := m.total_requests + 1 }) word now
        cases hr : (({ m with total_requests := m.total_requests + 1 } : Manager).cacheGetPron word now).1 with
        | some v =>
          simp only [hr]
          simp
        | none =>
          simp only [hr]
          apply pronLoop_not_invoked name info lf beh word now _ hst hlf
          · simp
          · rw [hcg.1]
            exact hlk
          · rw [hcg.2]
            exact hrec
    · intro bbeh words
      unfold Manager.batch_lookup
      by_cases hw : words = []
      · rw [if_pos hw]
        simp
      · rw [if_neg hw]
        unfold Manager.batchResolved
        have hcp := batchCachePhase_preserves m words now
        by_cases hu : (m.batchCachePhase words now).2.1 ≠ []
        · rw [if_pos hu]
          apply batchLoop_not_invoked name info lf bbeh _ now _ hst hlf
          · simp
          · rw [hcp.1]
            exact hlk
          · rw [hcp.2]
            exact hrec
        · rw [if_neg hu]
          simp
  · intro hrec
    rw [is_service_available_failed_recover m name now info lf hlk hst hlf hrec]
    refine ⟨rfl, dictLookup_insert_self _ _ _, ?_⟩
    have hlk2 : dictLookup ({ m with services := dictInsert m.services name ({ info with status := ServiceStatus.active, failure_count := 0 }) } : Manager).services name = some ({ info with status := ServiceStatus.active, failure_count := 0 }) :=
      dictLookup_insert_self _ _ _
    simp only [Manager.is_service_available, hlk2]

/-- Witness for C5: a concrete failed provider, checked inside and
outside the recovery window. -/
theorem failed_provider_recovery_window_witness :
    ((10 : Int) - 5 ≤ (((Manager.init false).register_service "s" 1 true 0).failures "s" 5 5).recovery_time ∧
      ((((Manager.init false).register_service "s" 1 true 0).failures "s" 5 5).is_service_available "s" 10).1 = false) ∧
    ((400 : Int) - 5 > (((Manager.init false).register_service "s" 1 true 0).failures "s" 5 5).recovery_time ∧
      ((((Manager.init false).register_service "s" 1 true 0).failures "s" 5 5).is_service_available "s" 400).1 = true) := by
  have h := failed_provider_recovery_window
    (((Manager.init false).register_service "s" 1 true 0).failures "s" 5 5) "s"
    (ServiceInfo.mk 1 ServiceStatus.failed 5 (some 5) 0 5 0) 5 10 (by decide) rfl rfl
  have h2 := failed_provider_recovery_window
    (((Manager.init false).register_service "s" 1 true 0).failures "s" 5 5) "s"
    (ServiceInfo.mk 1 ServiceStatus.failed 5 (some 5) 0 5 0) 5 400 (by decide) rfl rfl
  refine ⟨⟨by decide, ?_⟩, ⟨by decide, ?_⟩⟩
  · rw [(h.1 (by decide)).1]
  · exact (h2.2 (by decide)).1

/-- The value returned by `MemoryCache.get` is the read-only view. -/
theorem MemoryCache.memGet_fst (m : MemoryCache) (key : String) (now : Int) :
    (m.get key now).1 = m.lookupValid key now := by
  unfold MemoryCache.get MemoryCache.lookupValid
  cases dictLookup m.cache key with
  | none => rfl
  | some e =>
    cases h : e.is_expired now <;> simp [h]

/-- The value returned by `PersistentCache.get` is the read-only view. -/
theorem PersistentCache.persGet_fst (p : PersistentCache) (key : String)
    (now : Int) : (p.get key now).1 = p.lookupValid key now := by
  unfold PersistentCache.get PersistentCache.lookupValid
  cases dictLookup p.cache key with
  | none => rfl
  | some e =>
    cases h : e.is_expired now <;> simp [h]

/-- A memory-tier `get` does not change the configured default TTL. -/
theorem MemoryCache.get_default_ttl (m : MemoryCache) (key : String)
    (now : Int) : (m.get key now).2.default_ttl = m.default_ttl := by
  unfold MemoryCache.get
  cases dictLookup m.cache key with
  | none => rfl
  | some e =>
    cases h : e.is_expired now <;> simp [h]

/-- A memory-tier `set` stores an entry stamped `now` whose TTL is the
argument TTL, defaulted to the tier's own default TTL. -/
theorem MemoryCache.set_lookup_self (m : MemoryCache) (key value : String)
    (ttl : Option Int) (now : Int) :
    dictLookup (m.set key value ttl now).cache key =
      some (CacheEntry.mk value now
        (match ttl with | none => m.default_ttl | some t => some t)) := by
  unfold MemoryCache.set
  exact dictLookup_insert_self _ _ _

/-! ## C8: promotion from the persistent tier re-stamps the entry -/

/-- C8: when a key misses in the memory tier but has an unexpired entry
in the persistent tier, the tiered read returns the persisted value and
inserts it into the memory tier as a fresh entry stamped with the
current time and the memory tier's own default TTL — not with the
persisted entry's remaining TTL; this holds for both the definition and
the pronunciation read path. -/
theorem tiered_promotion_restamps :
    (∀ (c : DictionaryCache) (word : String) (now : Int) (e : CacheEntry),
      c.memory_cache.lookupValid (make_key word "definition") now = none →
      dictLookup c.persistent_cache.cache (make_key word "definition") = some e →
      e.is_expired now = false →
      (c.get_definition word now).1 = some e.data ∧
      dictLookup (c.get_definition word now).2.memory_cache.cache
          (make_key word "definition") =
        some (CacheEntry.mk e.data now c.memory_cache.default_ttl)) ∧
    (∀ (c : DictionaryCache) (word : String) (now : Int) (e : CacheEntry),
      c.memory_cache.lookupValid (make_key word "pronunciation") now = none →
      dictLookup c.persistent_cache.cache (make_key word "pronunciation") = some e →
      e.is_expired now = false →
      (c.get_pronunciation word now).1 = some e.data ∧
      dictLookup (c.get_pronunciation word now).2.memory_cache.cache
          (make_key word "pronunciation") =
        some (CacheEntry.mk e.data now c.memory_cache.default_ttl)) := by
  constructor
  · intro c word now e hmem hpers hexp
    unfold DictionaryCache.get_definition
    have h1 : (c.memory_cache.get (make_key word "definition") now).1 = none := by
      rw [MemoryCache.memGet_fst]
      exact hmem
    have h2 : (c.persistent_cache.get (make_key word "definition") now).1 = some e.data := by
      unfold PersistentCache.get
      rw [hpers]
      simp [hexp]
    simp only [h1, h2]
    refine ⟨trivial, ?_⟩
    rw [MemoryCache.set_lookup_self, MemoryCache.get_default_ttl]
  · intro c word now e hmem hpers hexp
    unfold DictionaryCache.get_pronunciation
    have h1 : (c.memory_cache.get (make_key word "pronunciation") now).1 = none := by
      rw [MemoryCache.memGet_fst]
      exact hmem
    have h2 : (c.persistent_cache.get (make_key word "pronunciation") now).1 = some e.data := by
      unfold PersistentCache.get
      rw [hpers]
      simp [hexp]
    simp only [h1, h2]
    refine ⟨trivial, ?_⟩
    rw [MemoryCache.set_lookup_self, MemoryCache.get_default_ttl]

/-- Witness for C8: a concrete tiered cache holding only a persisted
definition, read at a time where the persisted entry is near expiry. -/
theorem tiered_promotion_restamps_witness :
    ((DictionaryCache.mk (MemoryCache.init 5 (some 100)) (PersistentCache.mk [(make_key "w" "definition", CacheEntry.mk "d" 0 (some 10))]) 10).get_definition "w" 9).1 = some "d" ∧
    dictLookup ((DictionaryCache.mk (MemoryCache.init 5 (some 100)) (PersistentCache.mk [(make_key "w" "definition", CacheEntry.mk "d" 0 (some 10))]) 10).get_definition "w" 9).2.memory_cache.cache (make_key "w" "definition") =
      some (CacheEntry.mk "d" 9 (some 100)) := by
  have h := tiered_promotion_restamps.1
    (DictionaryCache.mk (MemoryCache.init 5 (some 100)) (PersistentCache.mk [(make_key "w" "definition", CacheEntry.mk "d" 0 (some 10))]) 10)
    "w" 9 (CacheEntry.mk "d" 0 (some 10)) (by decide) (by decide) (by decide)
  exact h

/-! ## C3: MemoryTier size bound and LRU eviction -/

/-- Deleting a key that is absent leaves a dict unchanged. -/
theorem dictDelete_not_mem {α : Type} (d : List (String × α)) (k : String)
    (h : k ∉ dictKeys d) : dictDelete d k = d := by
  induction d with
  | nil => rfl
  | cons p ps ih =>
    rw [dictDelete_cons]
    have hp : ¬(p.1 = k) := by
      intro e
      exact h (by simp [dictKeys, e])
    rw [if_neg hp, ih (fun hm => h (by simp [dictKeys] at hm ⊢; exact Or.inr hm))]

/-- Deleting a present key from a well-formed dict removes exactly one
binding. -/
theorem dictDelete_length_mem {α : Type} (d : List (String × α)) (k : String)
    (hnd : dictNodup d) (h : k ∈ dictKeys d) :
    (dictDelete d k).length + 1 = d.length := by
  induction d with
  | nil => simp [dictKeys] at h
  | cons p ps ih =>
    rw [dictDelete_cons]
    have hnd' : dictNodup ps := by
      unfold dictNodup dictKeys at hnd ⊢
      exact (List.nodup_cons.mp hnd).2
    by_cases hp : p.1 = k
    · have hknot : k ∉ dictKeys ps := by
        unfold dictNodup dictKeys at hnd
        have := (List.nodup_cons.mp hnd).1
        rw [hp] at this
        exact this
      rw [if_pos hp, dictDelete_not_mem ps k hknot]
      simp
    · have hk : k ∈ dictKeys ps := by
        have hkp : ¬(k = p.1) := fun e => hp e.symm
        simpa [dictKeys, hkp] using h
      rw [if_neg hp]
      simp only [List.length_cons]
      rw [← ih hnd' hk]

/-- Deletion never grows a dict. -/
theorem dictDelete_length_le {α : Type} (d : List (String × α)) (k : String) :
    (dictDelete d k).length ≤ d.length :=
  List.length_filter_le _ d

/-- A fresh memory tier is well-formed. -/
theorem MemInv_init (max_size : Nat) (ttl : Option Int) :
    MemInv (MemoryCache.init max_size ttl) :=
  ⟨rfl, List.nodup_nil⟩

/-- The `max_size` configuration is untouched by `get`. -/
theorem MemoryCache.get_max_size (m : MemoryCache) (key : String) (now : Int) :
    (m.get key now).2.max_size = m.max_size := by
  unfold MemoryCache.get
  cases dictLookup m.cache key with
  | none => rfl
  | some e => cases h : e.is_expired now <;> simp [h]

/-- The `max_size` configuration is untouched by `delete`. -/
theorem MemoryCache.delete_max_size (m : MemoryCache) (key : String) :
    (m.delete key).2.max_size = m.max_size := by
  unfold MemoryCache.delete
  cases dictLookup m.cache key with
  | none => rfl
  | some e => rfl

/-- The `max_size` configuration is untouched by `set`. -/
theorem MemoryCache.set_max_size (m : MemoryCache) (key value : String)
    (ttl : Option Int) (now : Int) :
    (m.set key value ttl now).max_size = m.max_size := by
  unfold MemoryCache.set
  by_cases hc : m.cache.length ≥ m.max_size ∧ dictLookup m.cache key = none
  · rw [if_pos hc]
    unfold MemoryCache.evict_lru
    cases minAcc m.access_order <;> rfl
  · rw [if_neg hc]

/-- A memory-tier `get` keeps the tier well-formed and never grows it. -/
theorem MemInv_get (m : MemoryCache) (key : String) (now : Int)
    (h : MemInv m) :
    MemInv (m.get key now).2 ∧
    (m.get key now).2.cache.length ≤ m.cache.length := by
  unfold MemoryCache.get
  cases hl : dictLookup m.cache key with
  | none => exact ⟨h, le_refl _⟩
  | some e =>
    cases hx : e.is_expired now with
    | true =>
      simp only [hx, if_true]
      refine ⟨⟨?_, dictNodup_delete _ _ h.2⟩, dictDelete_length_le _ _⟩
      rw [dictKeys_delete, dictKeys_delete, h.1]
    | false =>
      simp only [hx, Bool.false_eq_true, if_false]
      have hmem : key ∈ dictKeys m.access_order := by
        rw [← h.1, ← dictLookup_isSome_iff, hl]
        rfl
      refine ⟨⟨?_, h.2⟩, le_refl _⟩
      rw [dictKeys_insert_mem _ _ _ hmem, h.1]

/-- A memory-tier `delete` keeps the tier well-formed and never grows
it. -/
theorem MemInv_delete (m : MemoryCache) (key : String) (h : MemInv m) :
    MemInv (m.delete key).2 ∧
    (m.delete key).2.cache.length ≤ m.cache.length := by
  unfold MemoryCache.delete
  cases hl : dictLookup m.cache key with
  | none => exact ⟨h, le_refl _⟩
  | some e =>
    refine ⟨⟨?_, dictNodup_delete _ _ h.2⟩, dictDelete_length_le _ _⟩
    rw [dictKeys_delete, dictKeys_delete, h.1]

/-- LRU eviction keeps the tier well-formed, never grows it, and
strictly shrinks a nonempty well-formed tier. -/
theorem MemInv_evict (m : MemoryCache) (h : MemInv m) :
    MemInv m.evict_lru ∧
    m.evict_lru.cache.length ≤ m.cache.length ∧
    (m.cache ≠ [] → m.evict_lru.cache.length + 1 = m.cache.length) := by
  unfold MemoryCache.evict_lru
  cases hm : minAcc m.access_order with
  | none =>
    rw [minAcc_eq_none_iff] at hm
    have hc : m.cache = [] := by
      have h1 := h.1
      rw [hm] at h1
      unfold dictKeys at h1
      exact List.map_eq_nil_iff.mp h1
    exact ⟨h, le_refl _, fun hne => absurd hc hne⟩
  | some p =>
    have hpk : p.1 ∈ dictKeys m.cache := by
      rw [h.1]
      unfold dictKeys
      exact List.mem_map_of_mem _ (minAcc_mem _ _ hm)
    refine ⟨⟨?_, dictNodup_delete _ _ h.2⟩, dictDelete_length_le _ _, ?_⟩
    · rw [dictKeys_delete, dictKeys_delete, h.1]
    · intro _
      exact dictDelete_length_mem m.cache p.1 h.2 hpk

/-- The `max_size` configuration is untouched by LRU eviction. -/
theorem MemoryCache.evict_max_size (m : MemoryCache) :
    m.evict_lru.max_size = m.max_size := by
  unfold MemoryCache.evict_lru
  cases minAcc m.access_order <;> rfl

/-- A memory-tier `set` keeps the tier well-formed and keeps its size
within `max_size` whenever `max_size ≥ 1`. -/
theorem MemInv_set (m : MemoryCache) (key value : String) (ttl : Option Int)
    (now : Int) (h : MemInv m) (hpos : 1 ≤ m.max_size)
    (hlen : m.cache.length ≤ m.max_size) :
    MemInv (m.set key value ttl now) ∧
    (m.set key value ttl now).cache.length ≤ m.max_size := by
  unfold MemoryCache.set
  by_cases hc : m.cache.length ≥ m.max_size ∧ dictLookup m.cache key = none
  · rw [if_pos hc]
    have hev := MemInv_evict m h
    have hne : m.cache ≠ [] := by
      intro he
      rw [he] at hc
      simp at hc
      omega
    have hshr := hev.2.2 hne
    have hkeynot : key ∉ dictKeys m.evict_lru.cache := by
      intro hmem
      have hlkx : dictLookup m.evict_lru.cache key ≠ none := by
        rw [ne_eq, dictLookup_eq_none_iff]
        simpa using hmem
      unfold MemoryCache.evict_lru at hlkx
      cases hma : minAcc m.access_order with
      | none =>
        rw [hma] at hlkx
        exact hlkx hc.2
      | some p =>
        rw [hma] at hlkx
        by_cases hpk : key = p.1
        · exact hlkx (hpk ▸ dictLookup_delete_self _ _)
        · rw [dictLookup_delete_ne _ _ _ hpk] at hlkx
          exact hlkx hc.2
    constructor
    · constructor
      · rw [dictKeys_insert_new _ _ _ hkeynot]
        have hkao : key ∉ dictKeys m.evict_lru.access_order := by
          rw [← hev.1.1]
          exact hkeynot
        rw [dictKeys_insert_new _ _ _ hkao, hev.1.1]
      · exact dictNodup_insert _ _ _ hev.1.2
    · rw [dictInsert_length_new _ _ _ hkeynot]
      omega
  · rw [if_neg hc]
    by_cases hk : dictLookup m.cache key = none
    · have hkeynot : key ∉ dictKeys m.cache := (dictLookup_eq_none_iff _ _).mp hk
      have hlt : m.cache.length < m.max_size := by
        rcases not_and_or.mp hc with h1 | h1
        · omega
        · exact absurd hk h1
      constructor
      · constructor
        · have hkao : key ∉ dictKeys m.access_order := by
            rw [← h.1]
            exact hkeynot
          rw [dictKeys_insert_new _ _ _ hkeynot, dictKeys_insert_new _ _ _ hkao, h.1]
        · exact dictNodup_insert _ _ _ h.2
      · rw [dictInsert_length_new _ _ _ hkeynot]
        omega
    · have hkeymem : key ∈ dictKeys m.cache := by
        rw [← dictLookup_isSome_iff]
        cases hl : dictLookup m.cache key with
        | none => exact absurd hl hk
        | some e => rfl
      constructor
      · constructor
        · have hkao : key ∈ dictKeys m.access_order := by
            rw [← h.1]
            exact hkeymem
          rw [dictKeys_insert_mem _ _ _ hkeymem, dictKeys_insert_mem _ _ _ hkao, h.1]
        · exact dictNodup_insert _ _ _ h.2
      · rw [dictInsert_length_mem _ _ _ hkeymem]
        exact hlen

/-- Any operation sequence keeps a well-formed, within-bounds tier
well-formed and within bounds when `max_size ≥ 1`. -/
theorem runOps_inv (ops : List MemOp) :
    ∀ (m : MemoryCache), MemInv m → m.cache.length ≤ m.max_size →
      1 ≤ m.max_size →
      MemInv (runOps m ops) ∧
      (runOps m ops).cache.length ≤ (runOps m ops).max_size ∧
      (runOps m ops).max_size = m.max_size := by
  induction ops with
  | nil =>
    intro m h hl hp
    exact ⟨h, hl, rfl⟩
  | cons op ops ih =>
    intro m h hl hp
    simp only [runOps, applyOp]
    cases op with
    | get key now =>
      have hg := MemInv_get m key now h
      have hms := MemoryCache.get_max_size m key now
      have hr := ih (m.get key now).2 hg.1
        (by rw [hms]; exact le_trans hg.2 hl) (by rw [hms]; exact hp)
      exact ⟨hr.1, hr.2.1, by rw [hr.2.2, hms]⟩
    | set key value ttl now =>
      have hg := MemInv_set m key value ttl now h hp hl
      have hms := MemoryCache.set_max_size m key value ttl now
      have hr := ih (m.set key value ttl now) hg.1
        (by rw [hms]; exact hg.2) (by rw [hms]; exact hp)
      exact ⟨hr.1, hr.2.1, by rw [hr.2.2, hms]⟩
    | delete key =>
      have hg := MemInv_delete m key h
      have hms := MemoryCache.delete_max_size m key
      have hr := ih (m.delete key).2 hg.1
        (by rw [hms]; exact le_trans hg.2 hl) (by rw [hms]; exact hp)
      exact ⟨hr.1, hr.2.1, by rw [hr.2.2, hms]⟩

/-- At capacity, inserting a new key evicts exactly the
least-recently-accessed entry and nothing else. -/
theorem memory_tier_eviction (m : MemoryCache) (key value : String)
    (ttl : Option Int) (now : Int) (p : String × Int)
    (h : MemInv m) (hlen : m.cache.length = m.max_size)
    (hpos : 1 ≤ m.max_size) (hnew : dictLookup m.cache key = none)
    (hmin : minAcc m.access_order = some p) :
    (m.set key value ttl now).cache.length = m.max_size ∧
    (∀ q ∈ m.access_order, p.2 ≤ q.2) ∧
    p.1 ∈ dictKeys m.cache ∧
    dictLookup (m.set key value ttl now).cache p.1 = none ∧
    dictLookup (m.set key value ttl now).cache key =
      some (CacheEntry.mk value now
        (match ttl with | none => m.default_ttl | some t => some t)) ∧
    (∀ k', k' ≠ p.1 → k' ≠ key →
      dictLookup (m.set key value ttl now).cache k' = dictLookup m.cache k') := by
  have hc : m.cache.length ≥ m.max_size ∧ dictLookup m.cache key = none :=
    ⟨le_of_eq hlen.symm, hnew⟩
  have hpmem : p.1 ∈ dictKeys m.cache := by
    rw [h.1]
    unfold dictKeys
    exact List.mem_map_of_mem _ (minAcc_mem _ _ hmin)
  have hkeynot : key ∉ dictKeys m.cache := (dictLookup_eq_none_iff _ _).mp hnew
  have hpk : p.1 ≠ key := fun e => hkeynot (e ▸ hpmem)
  have hev : m.evict_lru = { m with cache := dictDelete m.cache p.1, access_order := dictDelete m.access_order p.1 } := by
    unfold MemoryCache.evict_lru
    rw [hmin]
  have hsetc : (m.set key value ttl now).cache =
      dictInsert (dictDelete m.cache p.1) key
        (CacheEntry.mk value now
          (match ttl with | none => m.default_ttl | some t => some t)) := by
    unfold MemoryCache.set
    rw [if_pos hc, hev]
  refine ⟨?_, minAcc_le _ _ hmin, hpmem, ?_, ?_, ?_⟩
  · rw [hsetc]
    have hkeynot2 : key ∉ dictKeys (dictDelete m.cache p.1) := by
      rw [dictKeys_delete]
      intro hmem
      exact hkeynot (List.mem_of_mem_filter hmem)
    rw [dictInsert_length_new _ _ _ hkeynot2]
    have := dictDelete_length_mem m.cache p.1 h.2 hpmem
    omega
  · rw [hsetc, dictLookup_insert_ne _ _ _ _ hpk, dictLookup_delete_self]
  · rw [hsetc, dictLookup_insert_self]
  · intro k' hk1 hk2
    rw [hsetc, dictLookup_insert_ne _ _ _ _ hk2, dictLookup_delete_ne _ _ _ hk1]

/-- C3 counterexample: a `MemoryTier` constructed with `maxSize = 0`
accepts an entry anyway — `set` evicts nothing from the empty tier and
then stores the new entry, so the size (1) exceeds `maxSize` (0),
refuting the unqualified size invariant. -/
theorem memory_tier_size_counterexample :
    ((MemoryCache.init 0 (some 3600)).set "a" "x" none 0).cache.length = 1 ∧
    ((MemoryCache.init 0 (some 3600)).set "a" "x" none 0).max_size = 0 :=
  ⟨rfl, rfl⟩

/-- C3 (amended): for every MemoryTier with `maxSize ≥ 1`, after any
sequence of get/set/delete operations the number of stored entries never
exceeds `maxSize`; when `set` is called with a new key while the tier
holds `maxSize` entries, exactly one entry is evicted, namely one whose
last access time is least (the first such in insertion order), all other
entries are untouched; and in the concrete scenario with `maxSize = 2` —
insert "a", insert "b", access "a", insert "c" — "b" is evicted while
"a" and "c" remain retrievable. (The `maxSize = 0` tier refutes the
unrestricted claim, see the counterexample.) -/
theorem memory_tier_lru_bound :
    (∀ (max_size : Nat) (ttl : Option Int) (ops : List MemOp),
      1 ≤ max_size →
      (runOps (MemoryCache.init max_size ttl) ops).cache.length ≤ max_size) ∧
    (∀ (m : MemoryCache) (key value : String) (ttl : Option Int) (now : Int)
      (p : String × Int),
      MemInv m → m.cache.length = m.max_size → 1 ≤ m.max_size →
      dictLookup m.cache key = none → minAcc m.access_order = some p →
      (m.set key value ttl now).cache.length = m.max_size ∧
      (∀ q ∈ m.access_order, p.2 ≤ q.2) ∧
      p.1 ∈ dictKeys m.cache ∧
      dictLookup (m.set key value ttl now).cache p.1 = none ∧
      (∀ k', k' ≠ p.1 → k' ≠ key →
        dictLookup (m.set key value ttl now).cache k' = dictLookup m.cache k')) ∧
    (((((((MemoryCache.init 2 none).set "a" "va" none 0).set "b" "vb" none 1).get "a" 2).2.set "c" "vc" none 3).get "b" 4).1 = none ∧
     ((((((MemoryCache.init 2 none).set "a" "va" none 0).set "b" "vb" none 1).get "a" 2).2.set "c" "vc" none 3).get "a" 4).1 = some "va" ∧
     ((((((MemoryCache.init 2 none).set "a" "va" none 0).set "b" "vb" none 1).get "a" 2).2.set "c" "vc" none 3).get "c" 4).1 = some "vc") := by
  refine ⟨?_, ?_, by decide, by decide, by decide⟩
  · intro max_size ttl ops hpos
    have hr := runOps_inv ops (MemoryCache.init max_size ttl)
      (MemInv_init max_size ttl) (by simp [MemoryCache.init]) hpos
    have h2 : (runOps (MemoryCache.init max_size ttl) ops).max_size = max_size := hr.2.2
    exact le_trans hr.2.1 (le_of_eq h2)
  · intro m key value ttl now p h hlen hpos hnew hmin
    have he := memory_tier_eviction m key value ttl now p h hlen hpos hnew hmin
    exact ⟨he.1, he.2.1, he.2.2.1, he.2.2.2.1, he.2.2.2.2.2⟩

/-- Witness for C3: the size bound evaluated on a concrete operation
sequence at `maxSize = 1`, and the eviction property evaluated on a
concrete full tier. -/
theorem memory_tier_lru_bound_witness :
    (runOps (MemoryCache.init 1 none)
      [MemOp.set "a" "x" none 0, MemOp.set "b" "y" none 1,
       MemOp.get "a" 2, MemOp.delete "b"]).cache.length ≤ 1 ∧
    ((((MemoryCache.init 2 none).set "a" "va" none 0).set "b" "vb" none 1).set "c" "vc" none 2).cache.length = 2 := by
  constructor
  · exact memory_tier_lru_bound.1 1 none
      [MemOp.set "a" "x" none 0, MemOp.set "b" "y" none 1,
       MemOp.get "a" 2, MemOp.delete "b"] (by decide)
  · have he := (memory_tier_lru_bound.2.1)
      (((MemoryCache.init 2 none).set "a" "va" none 0).set "b" "vb" none 1)
      "c" "vc" none 2 ("a", 0) (by decide) (by decide) (by decide) (by decide) (by decide)
    exact he.1

/-- An entry stamped `now` with a `ttlOk` TTL is unexpired at `now`. -/
theorem fresh_entry_unexpired (v : String) (now : Int) (o : Option Int)
    (h : ttlOk o) : (CacheEntry.mk v now o).is_expired now = false := by
  unfold CacheEntry.is_expired
  cases ho : o with
  | none => rfl
  | some t =>
    have ht := h t ho
    simp only [decide_eq_false_iff_not]
    omega

/-- The default TTL is untouched by a memory-tier `set`. -/
theorem MemoryCache.set_default_ttl (m : MemoryCache) (key value : String)
    (ttl : Option Int) (now : Int) :
    (m.set key value ttl now).default_ttl = m.default_ttl := by
  unfold MemoryCache.set
  by_cases hc : m.cache.length ≥ m.max_size ∧ dictLookup m.cache key = none
  · rw [if_pos hc]
    unfold MemoryCache.evict_lru
    cases minAcc m.access_order <;> rfl
  · rw [if_neg hc]

/-- A memory-tier `get` hit leaves the hit entry readable. -/
theorem MemoryCache.get_hit_lookupValid (m : MemoryCache) (key : String)
    (now : Int) (v : String) (h : (m.get key now).1 = some v) :
    (m.get key now).2.lookupValid key now = some v := by
  unfold MemoryCache.get at h ⊢
  cases hl : dictLookup m.cache key with
  | none =>
    simp only [hl] at h
    cases h
  | some e =>
    simp only [hl] at h ⊢
    cases hx : e.is_expired now with
    | true =>
      rw [hx] at h
      simp at h
    | false =>
      rw [hx] at h
      simp only [Bool.false_eq_true, if_false] at h
      simp only [hx, Bool.false_eq_true, if_false]
      unfold MemoryCache.lookupValid
      simp only [hl, hx, Bool.false_eq_true, if_false]
      exact h

/-- Specialisation of `set_lookup_self` to the defaulted TTL. -/
theorem MemoryCache.set_lookup_self_none (m : MemoryCache)
    (key value : String) (now : Int) :
    dictLookup (m.set key value none now).cache key =
      some (CacheEntry.mk value now m.default_ttl) := by
  rw [MemoryCache.set_lookup_self]

/-- After a fresh memory-tier `set` with the default TTL, the key is
readable at the write time whenever the default TTL is `ttlOk`. -/
theorem MemoryCache.set_lookupValid (m : MemoryCache) (key value : String)
    (now : Int) (httl : ttlOk m.default_ttl) :
    (m.set key value none now).lookupValid key now = some value := by
  unfold MemoryCache.lookupValid
  simp only [MemoryCache.set_lookup_self_none,
             fresh_entry_unexpired value now m.default_ttl httl,
             Bool.false_eq_true, if_false]

/-- The memory default TTL is untouched by a tiered definition read. -/
theorem DictionaryCache.get_definition_default_ttl (c : DictionaryCache)
    (word : String) (now : Int) :
    (c.get_definition word now).2.memory_cache.default_ttl =
      c.memory_cache.default_ttl := by
  unfold DictionaryCache.get_definition
  cases h1 : (c.memory_cache.get (make_key word "definition") now).1 with
  | some v =>
    simp only [h1]
    exact MemoryCache.get_default_ttl _ _ _
  | none =>
    simp only [h1]
    cases h2 : (c.persistent_cache.get (make_key word "definition") now).1 with
    | some v =>
      simp only [h2]
      rw [MemoryCache.set_default_ttl, MemoryCache.get_default_ttl]
    | none =>
      simp only [h2]
      exact MemoryCache.get_default_ttl _ _ _

/-- The memory default TTL is untouched by a tiered pronunciation
read. -/
theorem DictionaryCache.get_pronunciation_default_ttl (c : DictionaryCache)
    (word : String) (now : Int) :
    (c.get_pronunciation word now).2.memory_cache.default_ttl =
      c.memory_cache.default_ttl := by
  unfold DictionaryCache.get_pronunciation
  cases h1 : (c.memory_cache.get (make_key word "pronunciation") now).1 with
  | some v =>
    simp only [h1]
    exact MemoryCache.get_default_ttl _ _ _
  | none =>
    simp only [h1]
    cases h2 : (c.persistent_cache.get (make_key word "pronunciation") now).1 with
    | some v =>
      simp only [h2]
      rw [MemoryCache.set_default_ttl, MemoryCache.get_default_ttl]
    | none =>
      simp only [h2]
      exact MemoryCache.get_default_ttl _ _ _

/-- A tiered definition hit leaves the value readable from the memory
tier of the resulting state. -/
theorem get_definition_hit_state (c : DictionaryCache) (word v : String)
    (now : Int) (httl : ttlOk c.memory_cache.default_ttl)
    (h : (c.get_definition word now).1 = some v) :
    (c.get_definition word now).2.memory_cache.lookupValid
      (make_key word "definition") now = some v := by
  unfold DictionaryCache.get_definition at *
  cases h1 : (c.memory_cache.get (make_key word "definition") now).1 with
  | some u =>
    simp only [h1] at h ⊢
    injection h with h
    subst h
    exact MemoryCache.get_hit_lookupValid _ _ _ _ h1
  | none =>
    simp only [h1] at h ⊢
    cases h2 : (c.persistent_cache.get (make_key word "definition") now).1 with
    | some u =>
      simp only [h2] at h ⊢
      injection h with h
      subst h
      apply MemoryCache.set_lookupValid
      rw [MemoryCache.get_default_ttl]
      exact httl
    | none =>
      simp only [h2] at h
      cases h

/-- A tiered pronunciation hit leaves the value readable from the
memory tier of the resulting state. -/
theorem get_pronunciation_hit_state (c : DictionaryCache) (word v : String)
    (now : Int) (httl : ttlOk c.memory_cache.default_ttl)
    (h : (c.get_pronunciation word now).1 = some v) :
    (c.get_pronunciation word now).2.memory_cache.lookupValid
      (make_key word "pronunciation") now = some v := by
  unfold DictionaryCache.get_pronunciation at *
  cases h1 : (c.memory_cache.get (make_key word "pronunciation") now).1 with
  | some u =>
    simp only [h1] at h ⊢
    injection h with h
    subst h
    exact MemoryCache.get_hit_lookupValid _ _ _ _ h1
  | none =>
    simp only [h1] at h ⊢
    cases h2 : (c.persistent_cache.get (make_key word "pronunciation") now).1 with
    | some u =>
      simp only [h2] at h ⊢
      injection h with h
      subst h
      apply MemoryCache.set_lookupValid
      rw [MemoryCache.get_default_ttl]
      exact httl
    | none =>
      simp only [h2] at h
      cases h

/-- A write-through `set_definition` leaves the value readable from the
memory tier. -/
theorem set_definition_lookupValid (c : DictionaryCache) (word v : String)
    (now : Int) (httl : ttlOk c.memory_cache.default_ttl) :
    (c.set_definition word v now).memory_cache.lookupValid
      (make_key word "definition") now = some v := by
  unfold DictionaryCache.set_definition
  exact MemoryCache.set_lookupValid _ _ _ _ httl

/-- A write-through `set_pronunciation` leaves the value readable from
the memory tier. -/
theorem set_pronunciation_lookupValid (c : DictionaryCache) (word v : String)
    (now : Int) (httl : ttlOk c.memory_cache.default_ttl) :
    (c.set_pronunciation word v now).memory_cache.lookupValid
      (make_key word "pronunciation") now = some v := by
  unfold DictionaryCache.set_pronunciation
  exact MemoryCache.set_lookupValid _ _ _ _ httl

/-- An availability check leaves the cache and its flag unchanged. -/
theorem is_service_available_cache (m : Manager) (n : String) (now : Int) :
    (m.is_service_available n now).2.cache = m.cache ∧
    (m.is_service_available n now).2.cache_enabled = m.cache_enabled := by
  unfold Manager.is_service_available
  cases hl : dictLookup m.services n with
  | none => exact ⟨rfl, rfl⟩
  | some info =>
    rcases info with ⟨prio, status, fc, lfo, ls, tc, sc⟩
    cases status with
    | disabled => exact ⟨rfl, rfl⟩
    | active => exact ⟨rfl, rfl⟩
    | degraded => exact ⟨rfl, rfl⟩
    | failed =>
      cases lfo with
      | none => exact ⟨rfl, rfl⟩
      | some lf =>
        by_cases h : now - lf > m.recovery_time
        · simp only [h, if_true]
          exact ⟨trivial, trivial⟩
        · simp only [h, if_false]
          exact ⟨trivial, trivial⟩

/-- Recording a failure leaves the cache and its flag unchanged. -/
theorem record_failure_cache (m : Manager) (n : String) (now : Int) :
    (m.record_failure n now).cache = m.cache ∧
    (m.record_failure n now).cache_enabled = m.cache_enabled := by
  unfold Manager.record_failure
  cases dictLookup m.services n <;> exact ⟨rfl, rfl⟩

/-- Recording a success leaves the cache and its flag unchanged. -/
theorem record_success_cache (m : Manager) (n : String) (now : Int) :
    (m.record_success n now).cache = m.cache ∧
    (m.record_success n now).cache_enabled = m.cache_enabled := by
  unfold Manager.record_success
  cases dictLookup m.services n <;> exact ⟨rfl, rfl⟩

/-- When the definition provider loop returns a non-empty result with
the cache enabled, the final cache state is the loop-entry cache with
the result written through `set_definition`. -/
theorem defLoop_result_cached (beh : LookupBeh) (word : String) (now : Int)
    (names : List String) :
    ∀ (m : Manager) (invoked : List String) (c : DictionaryCache),
      m.cache_enabled = true → m.cache = some c →
      (m.defLoop names beh word now invoked).1 ≠ "" →
      (m.defLoop names beh word now invoked).2.1.cache_enabled = true ∧
      (m.defLoop names beh word now invoked).2.1.cache =
        some (c.set_definition word (m.defLoop names beh word now invoked).1 now) := by
  induction names with
  | nil =>
    intro m invoked c hce hc hr
    exact absurd rfl hr
  | cons n rest ih =>
    intro m invoked c hce hc hr
    unfold Manager.defLoop at hr ⊢
    have hpr := is_service_available_cache m n now
    cases hav : (m.is_service_available n now).1 with
    | true =>
      rw [if_pos hav] at hr ⊢
      cases hb : beh n word with
      | some result =>
        simp only [hb] at hr ⊢
        have hrs := record_success_cache (m.is_service_available n now).2 n now
        have hc2 : ((m.is_service_available n now).2.record_success n now).cache = some c := by
          rw [hrs.1, hpr.1, hc]
        have hce2 : ((m.is_service_available n now).2.record_success n now).cache_enabled = true := by
          rw [hrs.2, hpr.2, hce]
        unfold Manager.cacheSetDef
        simp only [hc2]
        have hcond : ((m.is_service_available n now).2.record_success n now).cache_enabled = true ∧ ¬(result = "") := ⟨hce2, hr⟩
        rw [if_pos hcond]
        exact ⟨hce2, rfl⟩
      | none =>
        simp only [hb] at hr ⊢
        have hrf := record_failure_cache (m.is_service_available n now).2 n now
        apply ih
        · rw [hrf.2, hpr.2]
          exact hce
        · rw [hrf.1, hpr.1]
          exact hc
        · exact hr
    | false =>
      rw [if_neg (by simp [hav])] at hr ⊢
      apply ih
      · rw [hpr.2]
        exact hce
      · rw [hpr.1]
        exact hc
      · exact hr

/-- When the pronunciation provider loop returns a non-empty result
with the cache enabled, the final cache state is the loop-entry cache
with the result written through `set_pronunciation`. -/
theorem pronLoop_result_cached (beh : LookupBeh) (word : String) (now : Int)
    (names : List String) :
    ∀ (m : Manager) (invoked : List String) (c : DictionaryCache),
      m.cache_enabled = true → m.cache = some c →
      (m.pronLoop names beh word now invoked).1 ≠ "" →
      (m.pronLoop names beh word now invoked).2.1.cache_enabled = true ∧
      (m.pronLoop names beh word now invoked).2.1.cache =
        some (c.set_pronunciation word (m.pronLoop names beh word now invoked).1 now) := by
  induction names with
  | nil =>
    intro m invoked c hce hc hr
    exact absurd rfl hr
  | cons n rest ih =>
    intro m invoked c hce hc hr
    unfold Manager.pronLoop at hr ⊢
    have hpr := is_service_available_cache m n now
    cases hav : (m.is_service_available n now).1 with
    | true =>
      rw [if_pos hav] at hr ⊢
      cases hb : beh n word with
      | some result =>
        simp only [hb] at hr ⊢
        have hrs := record_success_cache (m.is_service_available n now).2 n now
        have hc2 : ((m.is_service_available n now).2.record_success n now).cache = some c := by
          rw [hrs.1, hpr.1, hc]
        have hce2 : ((m.is_service_available n now).2.record_success n now).cache_enabled = true := by
          rw [hrs.2, hpr.2, hce]
        unfold Manager.cacheSetPron
        simp only [hc2]
        have hcond : ((m.is_service_available n now).2.record_success n now).cache_enabled = true ∧ ¬(result = "") := ⟨hce2, hr⟩
        rw [if_pos hcond]
        exact ⟨hce2, rfl⟩
      | none =>
        simp only [hb] at hr ⊢
        have hrf := record_failure_cache (m.is_service_available n now).2 n now
        apply ih
        · rw [hrf.2, hpr.2]
          exact hce
        · rw [hrf.1, hpr.1]
          exact hc
        · exact hr
    | false =>
      rw [if_neg (by simp [hav])] at hr ⊢
      apply ih
      · rw [hpr.2]
        exact hce
      · rw [hpr.1]
        exact hc
      · exact hr

/-- A manager whose enabled cache already holds a readable definition
for `word` answers `get_definition` from the cache: the cached value is
returned, no provider is invoked, and `cache_hits` is bumped. -/
theorem manager_cache_hit_def (m : Manager) (beh : LookupBeh)
    (word : String) (now : Int) (c : DictionaryCache) (v : String)
    (hce : m.cache_enabled = true) (hc : m.cache = some c)
    (hv : c.memory_cache.lookupValid (make_key word "definition") now = some v)
    (hw : word ≠ "") :
    (m.get_definition beh word now).1 = v ∧
    (m.get_definition beh word now).2.2 = [] ∧
    (m.get_definition beh word now).2.1.cache_hits = m.cache_hits + 1 := by
  unfold Manager.get_definition
  rw [if_neg hw]
  have hcg : (({ m with total_requests := m.total_requests + 1 } : Manager).cacheGetDef word now).1 = some v := by
    unfold Manager.cacheGetDef
    rw [if_pos hce]
    simp only [hc]
    have h1 : (c.get_definition word now).1 = some v := by
      unfold DictionaryCache.get_definition
      have h2 : (c.memory_cache.get (make_key word "definition") now).1 = some v := by
        rw [MemoryCache.memGet_fst]
        exact hv
      simp only [h2]
    simp only [h1]
  simp only [hcg]
  refine ⟨trivial, trivial, ?_⟩
  unfold Manager.cacheGetDef
  rw [if_pos hce]
  simp only [hc]

/-- A manager whose enabled cache already holds a readable pronunciation
for `word` answers `get_pronunciation` from the cache. -/
theorem manager_cache_hit_pron (m : Manager) (beh : LookupBeh)
    (word : String) (now : Int) (c : DictionaryCache) (v : String)
    (hce : m.cache_enabled = true) (hc : m.cache = some c)
    (hv : c.memory_cache.lookupValid (make_key word "pronunciation") now = some v)
    (hw : word ≠ "") :
    (m.get_pronunciation beh word now).1 = v ∧
    (m.get_pronunciation beh word now).2.2 = [] ∧
    (m.get_pronunciation beh word now).2.1.cache_hits = m.cache_hits + 1 := by
  unfold Manager.get_pronunciation
  rw [if_neg hw]
  have hcg : (({ m with total_requests := m.total_requests + 1 } : Manager).cacheGetPron word now).1 = some v := by
    unfold Manager.cacheGetPron
    rw [if_pos hce]
    simp only [hc]
    have h1 : (c.get_pronunciation word now).1 = some v := by
      unfold DictionaryCache.get_pronunciation
      have h2 : (c.memory_cache.get (make_key word "pronunciation") now).1 = some v := by
        rw [MemoryCache.memGet_fst]
        exact hv
      simp only [h2]
    simp only [h1]
  simp only [hcg]
  refine ⟨trivial, trivial, ?_⟩
  unfold Manager.cacheGetPron
  rw [if_pos hce]
  simp only [hc]

/-- After a `get_definition` call that returned a non-empty string, the
manager's cache is enabled and its memory tier holds that string for the
word. -/
theorem get_definition_first_state (m : Manager) (beh : LookupBeh)
    (word : String) (now : Int) (c : DictionaryCache)
    (hce : m.cache_enabled = true) (hc : m.cache = some c)
    (httl : ttlOk c.memory_cache.default_ttl)
    (hr1 : (m.get_definition beh word now).1 ≠ "") :
    (m.get_definition beh word now).2.1.cache_enabled = true ∧
    ∃ c2, (m.get_definition beh word now).2.1.cache = some c2 ∧
      c2.memory_cache.lookupValid (make_key word "definition") now =
        some (m.get_definition beh word now).1 ∧
      ttlOk c2.memory_cache.default_ttl := by
  have hw : word ≠ "" := by
    intro he
    apply hr1
    rw [he]
    rfl
  unfold Manager.get_definition at hr1 ⊢
  rw [if_neg hw] at hr1 ⊢
  have hcgp : (({ m with total_requests := m.total_requests + 1 } : Manager).cacheGetDef word now).2.cache_enabled = true := by
    unfold Manager.cacheGetDef
    rw [if_pos hce]
    simp only [hc]
    exact hce
  have hcgc : (({ m with total_requests := m.total_requests + 1 } : Manager).cacheGetDef word now).2.cache = some (c.get_definition word now).2 := by
    unfold Manager.cacheGetDef
    rw [if_pos hce]
    simp only [hc]
  have hcgv : (({ m with total_requests := m.total_requests + 1 } : Manager).cacheGetDef word now).1 = (c.get_definition word now).1 := by
    unfold Manager.cacheGetDef
    rw [if_pos hce]
    simp only [hc]
  have httl2 : ttlOk (c.get_definition word now).2.memory_cache.default_ttl := by
    rw [DictionaryCache.get_definition_default_ttl]
    exact httl
  cases hcr : (c.get_definition word now).1 with
  | some v =>
    have hcg1 : (({ m with total_requests := m.total_requests + 1 } : Manager).cacheGetDef word now).1 = some v := by
      rw [hcgv, hcr]
    simp only [hcg1] at hr1 ⊢
    refine ⟨hcgp, (c.get_definition word now).2, hcgc, ?_, httl2⟩
    exact get_definition_hit_state c word v now httl hcr
  | none =>
    have hcg1 : (({ m with total_requests := m.total_requests + 1 } : Manager).cacheGetDef word now).1 = none := by
      rw [hcgv, hcr]
    simp only [hcg1] at hr1 ⊢
    have hl := defLoop_result_cached beh word now
      ((({ m with total_requests := m.total_requests + 1 } : Manager).cacheGetDef word now).2.get_services_by_priority)
      (({ m with total_requests := m.total_requests + 1 } : Manager).cacheGetDef word now).2
      [] (c.get_definition word now).2 hcgp hcgc hr1
    refine ⟨hl.1, _, hl.2, ?_, ?_⟩
    · apply set_definition_lookupValid
      exact httl2
    · unfold DictionaryCache.set_definition
      exact fun t ht => httl2 t (by rw [← ht]; exact (MemoryCache.set_default_ttl _ _ _ _ _).symm)

/-- After a `get_pronunciation` call that returned a non-empty string,
the manager's cache is enabled and its memory tier holds that string for
the word. -/
theorem get_pronunciation_first_state (m : Manager) (beh : LookupBeh)
    (word : String) (now : Int) (c : DictionaryCache)
    (hce : m.cache_enabled = true) (hc : m.cache = some c)
    (httl : ttlOk c.memory_cache.default_ttl)
    (hr1 : (m.get_pronunciation beh word now).1 ≠ "") :
    (m.get_pronunciation beh word now).2.1.cache_enabled = true ∧
    ∃ c2, (m.get_pronunciation beh word now).2.1.cache = some c2 ∧
      c2.memory_cache.lookupValid (make_key word "pronunciation") now =
        some (m.get_pronunciation beh word now).1 ∧
      ttlOk c2.memory_cache.default_ttl := by
  have hw : word ≠ "" := by
    intro he
    apply hr1
    rw [he]
    rfl
  unfold Manager.get_pronunciation at hr1 ⊢
  rw [if_neg hw] at hr1 ⊢
  have hcgp : (({ m with total_requests := m.total_requests + 1 } : Manager).cacheGetPron word now).2.cache_enabled = true := by
    unfold Manager.cacheGetPron
    rw [if_pos hce]
    simp only [hc]
    exact hce
  have hcgc : (({ m with total_requests := m.total_requests + 1 } : Manager).cacheGetPron word now).2.cache = some (c.get_pronunciation word now).2 := by
    unfold Manager.cacheGetPron
    rw [if_pos hce]
    simp only [hc]
  have hcgv : (({ m with total_requests := m.total_requests + 1 } : Manager).cacheGetPron word now).1 = (c.get_pronunciation word now).1 := by
    unfold Manager.cacheGetPron
    rw [if_pos hce]
    simp only [hc]
  have httl2 : ttlOk (c.get_pronunciation word now).2.memory_cache.default_ttl := by
    rw [DictionaryCache.get_pronunciation_default_ttl]
    exact httl
  cases hcr : (c.get_pronunciation word now).1 with
  | some v =>
    have hcg1 : (({ m with total_requests := m.total_requests + 1 } : Manager).cacheGetPron word now).1 = some v := by
      rw [hcgv, hcr]
    simp only [hcg1] at hr1 ⊢
    refine ⟨hcgp, (c.get_pronunciation word now).2, hcgc, ?_, httl2⟩
    exact get_pronunciation_hit_state c word v now httl hcr
  | none =>
    have hcg1 : (({ m with total_requests := m.total_requests + 1 } : Manager).cacheGetPron word now).1 = none := by
      rw [hcgv, hcr]
    simp only [hcg1] at hr1 ⊢
    have hl := pronLoop_result_cached beh word now
      ((({ m with total_requests := m.total_requests + 1 } : Manager).cacheGetPron word now).2.get_services_by_priority)
      (({ m with total_requests := m.total_requests + 1 } : Manager).cacheGetPron word now).2
      [] (c.get_pronunciation word now).2 hcgp hcgc hr1
    refine ⟨hl.1, _, hl.2, ?_, ?_⟩
    · apply set_pronunciation_lookupValid
      exact httl2
    · unfold DictionaryCache.set_pronunciation
      exact fun t ht => httl2 t (by rw [← ht]; exact (MemoryCache.set_default_ttl _ _ _ _ _).symm)

/-- C2 counterexample: a provider that answers with the empty string;
the manager caches only truthy results, so both the first and an
immediately repeated `get_definition` with no intervening clear or
expiry invoke the provider — the second call is not served from the
cache, refuting the "regardless of what the first call returned"
claim. -/
theorem second_lookup_counterexample :
    (mgrW.get_definition behEmpty "w" 0).1 = "" ∧
    (mgrW.get_definition behEmpty "w" 0).2.2 = ["s"] ∧
    ((mgrW.get_definition behEmpty "w" 0).2.1.get_definition behEmpty "w" 0).2.2 = ["s"] := by
  refine ⟨by decide, by decide, by decide⟩

/-- C2 (amended): with the cache enabled and a nonnegative (or absent)
memory-tier TTL, whenever a `get_definition` call returned a non-empty
string, an immediately repeated call for the same word (under any
provider behaviour) is answered from the cache: it returns the same
value, invokes no provider, and bumps `cache_hits`; the same holds for
`get_pronunciation`. When the first call returned the empty string the
result is not cached and the second call consults providers again (see
the counterexample). -/
theorem second_lookup_cached (m : Manager) (beh1 beh2 : LookupBeh)
    (word : String) (now : Int) (c : DictionaryCache)
    (hce : m.cache_enabled = true) (hc : m.cache = some c)
    (httl : ttlOk c.memory_cache.default_ttl) :
    ((m.get_definition beh1 word now).1 ≠ "" →
      ((m.get_definition beh1 word now).2.1.get_definition beh2 word now).1 =
        (m.get_definition beh1 word now).1 ∧
      ((m.get_definition beh1 word now).2.1.get_definition beh2 word now).2.2 = [] ∧
      ((m.get_definition beh1 word now).2.1.get_definition beh2 word now).2.1.cache_hits =
        (m.get_definition beh1 word now).2.1.cache_hits + 1) ∧
    ((m.get_pronunciation beh1 word now).1 ≠ "" →
      ((m.get_pronunciation beh1 word now).2.1.get_pronunciation beh2 word now).1 =
        (m.get_pronunciation beh1 word now).1 ∧
      ((m.get_pronunciation beh1 word now).2.1.get_pronunciation beh2 word now).2.2 = [] ∧
      ((m.get_pronunciation beh1 word now).2.1.get_pronunciation beh2 word now).2.1.cache_hits =
        (m.get_pronunciation beh1 word now).2.1.cache_hits + 1) := by
  constructor
  · intro hr1
    have hw : word ≠ "" := by
      intro he
      apply hr1
      rw [he]
      rfl
    obtain ⟨hce2, c2, hc2, hv2, httl2⟩ :=
      get_definition_first_state m beh1 word now c hce hc httl hr1
    exact manager_cache_hit_def _ beh2 word now c2 _ hce2 hc2 hv2 hw
  · intro hr1
    have hw : word ≠ "" := by
      intro he
      apply hr1
      rw [he]
      rfl
    obtain ⟨hce2, c2, hc2, hv2, httl2⟩ :=
      get_pronunciation_first_state m beh1 word now c hce hc httl hr1
    exact manager_cache_hit_pron _ beh2 word now c2 _ hce2 hc2 hv2 hw

/-- Witness for C2: the amended theorem evaluated on a concrete manager
whose provider answers "hi". -/
theorem second_lookup_cached_witness :
    ((mgrW.get_definition behHello "w" 0).2.1.get_definition behHello "w" 0).1 =
      (mgrW.get_definition behHello "w" 0).1 ∧
    ((mgrW.get_definition behHello "w" 0).2.1.get_definition behHello "w" 0).2.2 = [] ∧
    ((mgrW.get_definition behHello "w" 0).2.1.get_definition behHello "w" 0).2.1.cache_hits =
      (mgrW.get_definition behHello "w" 0).2.1.cache_hits + 1 :=
  (second_lookup_cached mgrW behHello behHello "w" 0
    (DictionaryCache.init 5000 3600 (86400 * 7)) rfl rfl (by decide)).1 (by decide)

/-- The memory read-only view factored through `entryValid`. -/
theorem MemoryCache.memLookupValid_eq (m : MemoryCache) (key : String)
    (now : Int) : m.lookupValid key now = entryValid (dictLookup m.cache key) now := by
  unfold MemoryCache.lookupValid entryValid
  cases dictLookup m.cache key <;> rfl

/-- The persistent read-only view factored through `entryValid`. -/
theorem PersistentCache.persLookupValid_eq (p : PersistentCache) (key : String)
    (now : Int) : p.lookupValid key now = entryValid (dictLookup p.cache key) now := by
  unfold PersistentCache.lookupValid entryValid
  cases dictLookup p.cache key <;> rfl

/-- Definition keys and pronunciation keys never collide. -/
theorem make_key_ne (w1 w2 : String) :
    make_key w1 "pronunciation" ≠ make_key w2 "definition" := by
  intro h
  have h2 := congrArg (fun s => s.data.head?) h
  simp only [make_key, String.data_append] at h2
  simp at h2

/-- Disjunction view of an absent presence bit. -/
theorem present_false_iff (a b : Option String) :
    (a.isSome || b.isSome) = false ↔ a = none ∧ b = none := by
  cases a <;> cases b <;> simp

/-- A memory-tier `get` for one key cannot make another key readable. -/
theorem memValid_none_get (m : MemoryCache) (key k' : String)
    (now now2 : Int) (h : m.lookupValid k' now2 = none) :
    (m.get key now).2.lookupValid k' now2 = none := by
  rw [MemoryCache.memLookupValid_eq] at h ⊢
  unfold MemoryCache.get
  cases hl : dictLookup m.cache key with
  | none => exact h
  | some e =>
    cases hx : e.is_expired now with
    | true =>
      simp only [hx, if_true]
      by_cases hk : k' = key
      · rw [hk, dictLookup_delete_self]
        rfl
      · rw [dictLookup_delete_ne _ _ _ hk]
        exact h
    | false =>
      simp only [hx, Bool.false_eq_true, if_false]
      exact h

/-- A memory-tier `set` for one key cannot make a different key
readable. -/
theorem memValid_none_set (m : MemoryCache) (key k' value : String)
    (ttl : Option Int) (now now2 : Int) (hne : k' ≠ key)
    (h : m.lookupValid k' now2 = none) :
    (m.set key value ttl now).lookupValid k' now2 = none := by
  rw [MemoryCache.memLookupValid_eq] at h ⊢
  unfold MemoryCache.set
  rw [dictLookup_insert_ne _ _ _ _ hne]
  by_cases hc : m.cache.length ≥ m.max_size ∧ dictLookup m.cache key = none
  · rw [if_pos hc]
    unfold MemoryCache.evict_lru
    cases hm : minAcc m.access_order with
    | none => exact h
    | some p =>
      by_cases hk : k' = p.1
      · rw [hk, dictLookup_delete_self]
        rfl
      · rw [dictLookup_delete_ne _ _ _ hk]
        exact h
  · rw [if_neg hc]
    exact h

/-- A persistent-tier `get` for one key cannot make another key
readable. -/
theorem persValid_none_get (p : PersistentCache) (key k' : String)
    (now now2 : Int) (h : p.lookupValid k' now2 = none) :
    (p.get key now).2.lookupValid k' now2 = none := by
  rw [PersistentCache.persLookupValid_eq] at h ⊢
  unfold PersistentCache.get
  cases hl : dictLookup p.cache key with
  | none => exact h
  | some e =>
    cases hx : e.is_expired now with
    | true =>
      simp only [hx, if_true]
      by_cases hk : k' = key
      · rw [hk, dictLookup_delete_self]
        rfl
      · rw [dictLookup_delete_ne _ _ _ hk]
        exact h
    | false =>
      simp only [hx, Bool.false_eq_true, if_false]
      exact h

/-- A tiered definition read cannot create pronunciation presence. -/
theorem get_definition_preserves_pron_absent (c : DictionaryCache)
    (word : String) (now : Int) (h : c.pronPresent word now = false) :
    (c.get_definition word now).2.pronPresent word now = false := by
  unfold DictionaryCache.pronPresent at h ⊢
  rw [present_false_iff] at h ⊢
  have hne := make_key_ne word word
  unfold DictionaryCache.get_definition
  cases h1 : (c.memory_cache.get (make_key word "definition") now).1 with
  | some v =>
    simp only [h1]
    exact ⟨memValid_none_get _ _ _ _ _ h.1, h.2⟩
  | none =>
    simp only [h1]
    cases h2 : (c.persistent_cache.get (make_key word "definition") now).1 with
    | some v =>
      simp only [h2]
      refine ⟨?_, persValid_none_get _ _ _ _ _ h.2⟩
      exact memValid_none_set _ _ _ _ _ _ _ hne (memValid_none_get _ _ _ _ _ h.1)
    | none =>
      simp only [h2]
      exact ⟨memValid_none_get _ _ _ _ _ h.1, persValid_none_get _ _ _ _ _ h.2⟩

/-- A tiered definition read misses when no definition is present. -/
theorem get_definition_absent (c : DictionaryCache) (word : String)
    (now : Int) (h : c.defPresent word now = false) :
    (c.get_definition word now).1 = none := by
  unfold DictionaryCache.defPresent at h
  rw [present_false_iff] at h
  unfold DictionaryCache.get_definition
  have h1 : (c.memory_cache.get (make_key word "definition") now).1 = none := by
    rw [MemoryCache.memGet_fst]
    exact h.1
  have h2 : (c.persistent_cache.get (make_key word "definition") now).1 = none := by
    rw [PersistentCache.persGet_fst]
    exact h.2
  simp only [h1, h2]

/-- A tiered pronunciation read misses when no pronunciation is
present. -/
theorem get_pronunciation_absent (c : DictionaryCache) (word : String)
    (now : Int) (h : c.pronPresent word now = false) :
    (c.get_pronunciation word now).1 = none := by
  unfold DictionaryCache.pronPresent at h
  rw [present_false_iff] at h
  unfold DictionaryCache.get_pronunciation
  have h1 : (c.memory_cache.get (make_key word "pronunciation") now).1 = none := by
    rw [MemoryCache.memGet_fst]
    exact h.1
  have h2 : (c.persistent_cache.get (make_key word "pronunciation") now).1 = none := by
    rw [PersistentCache.persGet_fst]
    exact h.2
  simp only [h1, h2]

/-- A memory-tier `get` hit does not change the entry map. -/
theorem MemoryCache.get_hit_cache (m : MemoryCache) (key : String)
    (now : Int) (v : String) (h : (m.get key now).1 = some v) :
    (m.get key now).2.cache = m.cache := by
  unfold MemoryCache.get at h ⊢
  cases hl : dictLookup m.cache key with
  | none =>
    simp only [hl] at h
    cases h
  | some e =>
    simp only [hl] at h ⊢
    cases hx : e.is_expired now with
    | true =>
      rw [hx] at h
      simp at h
    | false =>
      simp

/-- C7 counterexample: at t=4 both the definition (persistent tier,
unexpired) and the pronunciation (memory tier, unexpired) of "test" are
present in `ccx`, yet `getWordInfo` returns absent: the definition read
promotes into the full memory tier, evicting the LRU pronunciation
entry, whose persistent copy has already expired — so "returns a pair
exactly when both are present" fails on the code. -/
theorem word_info_present_counterexample :
    ccx.defPresent "test" 4 = true ∧
    ccx.pronPresent "test" 4 = true ∧
    (ccx.get_word_info "test" 4).1 = none :=
  ⟨by decide, by decide, by decide⟩

/-- C7 (amended): `getWordInfo` returns absent whenever either the
definition or the pronunciation is missing from both tiers (a partial
hit is never surfaced); whenever it returns a pair, both were present;
and when both are readable from the memory tier it returns exactly that
pair. (Both present does not always produce a pair: the definition
read's promotion can evict a memory-only pronunciation whose persistent
copy has expired — see the counterexample.) -/
theorem get_word_info_both_required (c : DictionaryCache) (word : String)
    (now : Int) :
    (c.defPresent word now = false → (c.get_word_info word now).1 = none) ∧
    (c.pronPresent word now = false → (c.get_word_info word now).1 = none) ∧
    (∀ d p, (c.get_word_info word now).1 = some (d, p) →
      c.defPresent word now = true ∧ c.pronPresent word now = true) ∧
    (∀ d p,
      c.memory_cache.lookupValid (make_key word "definition") now = some d →
      c.memory_cache.lookupValid (make_key word "pronunciation") now = some p →
      (c.get_word_info word now).1 = some (d, p)) := by
  have ha : c.defPresent word now = false → (c.get_word_info word now).1 = none := by
    intro h
    unfold DictionaryCache.get_word_info
    have h1 := get_definition_absent c word now h
    simp only [h1]
  have hb : c.pronPresent word now = false → (c.get_word_info word now).1 = none := by
    intro h
    unfold DictionaryCache.get_word_info
    have h2 := get_pronunciation_absent _ word now
      (get_definition_preserves_pron_absent c word now h)
    simp only [h2]
    cases (c.get_definition word now).1 <;> rfl
  refine ⟨ha, hb, ?_, ?_⟩
  · intro d p hdp
    constructor
    · cases hd : c.defPresent word now with
      | true => rfl
      | false =>
        rw [ha hd] at hdp
        cases hdp
    · cases hp : c.pronPresent word now with
      | true => rfl
      | false =>
        rw [hb hp] at hdp
        cases hdp
  · intro d p hd hp
    unfold DictionaryCache.get_word_info
    have hm : (c.memory_cache.get (make_key word "definition") now).1 = some d := by
      rw [MemoryCache.memGet_fst]
      exact hd
    have h1 : (c.get_definition word now).1 = some d := by
      unfold DictionaryCache.get_definition
      simp only [hm]
    have hcache : (c.get_definition word now).2.memory_cache.cache = c.memory_cache.cache := by
      unfold DictionaryCache.get_definition
      simp only [hm]
      exact MemoryCache.get_hit_cache _ _ _ _ hm
    have h2 : ((c.get_definition word now).2.get_pronunciation word now).1 = some p := by
      have hm2 : ((c.get_definition word now).2.memory_cache.get (make_key word "pronunciation") now).1 = some p := by
        rw [MemoryCache.memGet_fst, MemoryCache.memLookupValid_eq, hcache,
            ← MemoryCache.memLookupValid_eq]
        exact hp
      unfold DictionaryCache.get_pronunciation
      simp only [hm2]
    simp only [h1, h2]

/-- Witness for C7: `getWordInfo` on a cache holding both fields of "w"
in the memory tier returns the pair, and on a cache with a missing
pronunciation returns absent. -/
theorem get_word_info_both_required_witness :
    (ccw.get_word_info "w" 0).1 = some ("d", "p") ∧
    (((DictionaryCache.init 5 100 50).set_definition "test" "d" 0).get_word_info "test" 0).1 = none :=
  ⟨(get_word_info_both_required ccw "w" 0).2.2.2 "d" "p" (by decide) (by decide),
   (get_word_info_both_required ((DictionaryCache.init 5 100 50).set_definition "test" "d" 0) "test" 0).2.1 (by decide)⟩

/-! ## C1: batch_lookup covers every input word -/

/-- The fill loop preserves every binding already in the result map. -/
theorem batchFill_preserves (words : List String) :
    ∀ (res : List (String × WordInfo)) (w : String) (r : WordInfo),
      dictLookup res w = some r → dictLookup (batchFill res words) w = some r := by
  induction words with
  | nil =>
    intro res w r h
    exact h
  | cons x xs ih =>
    intro res w r h
    unfold batchFill at ih ⊢
    rw [List.foldl_cons]
    cases hx : dictLookup res x with
    | some q =>
      simp only [hx]
      exact ih res w r h
    | none =>
      simp only [hx]
      apply ih
      by_cases hxw : w = x
      · rw [hxw] at h
        rw [hx] at h
        cases h
      · rw [dictLookup_insert_ne _ _ _ _ hxw]
        exact h

/-- A word still missing from the result map before the fill loop is
mapped to the empty not-found record by the fill loop. -/
theorem batchFill_default (words : List String) :
    ∀ (res : List (String × WordInfo)) (w : String),
      w ∈ words → dictLookup res w = none →
      dictLookup (batchFill res words) w =
        some (mkWordInfo w "" "" false false) := by
  induction words with
  | nil =>
    intro res w hw
    cases hw
  | cons x xs ih =>
    intro res w hw h
    unfold batchFill at ih ⊢
    rw [List.foldl_cons]
    by_cases hxw : x = w
    · subst hxw
      rw [h]
      simp only []
      apply batchFill_preserves
      exact dictLookup_insert_self _ _ _
    · have hw' : w ∈ xs := by
        cases List.mem_cons.mp hw with
        | inl h1 => exact absurd h1.symm hxw
        | inr h1 => exact h1
      cases hx : dictLookup res x with
      | some q =>
        simp only [hx]
        exact ih res w hw' h
      | none =>
        simp only [hx]
        apply ih _ w hw'
        rw [dictLookup_insert_ne _ _ _ _ (fun e => hxw e.symm)]
        exact h

/-- After the fill loop every input word has a binding. -/
theorem batchFill_covers (words : List String) (res : List (String × WordInfo))
    (w : String) (hw : w ∈ words) :
    (dictLookup (batchFill res words) w).isSome = true := by
  cases hx : dictLookup res w with
  | some r =>
    rw [batchFill_preserves words res w r hx]
    rfl
  | none =>
    rw [batchFill_default words res w hw hx]
    rfl

/-- The fill loop preserves key uniqueness. -/
theorem batchFill_nodup (words : List String) :
    ∀ (res : List (String × WordInfo)), dictNodup res →
      dictNodup (batchFill res words) := by
  induction words with
  | nil =>
    intro res h
    exact h
  | cons x xs ih =>
    intro res h
    unfold batchFill at ih ⊢
    rw [List.foldl_cons]
    cases hx : dictLookup res x with
    | some q =>
      simp only [hx]
      exact ih res h
    | none =>
      simp only [hx]
      exact ih _ (dictNodup_insert _ _ _ h)

/-- The cache phase of `batch_lookup` produces a well-formed result
map. -/
theorem batchCachePhase_nodup (m : Manager) (words : List String)
    (now : Int) : dictNodup (m.batchCachePhase words now).1 := by
  unfold Manager.batchCachePhase
  by_cases h : m.cache_enabled ∧ m.cache.isSome
  · rw [if_pos h]
    suffices haux : ∀ (ws : List String)
        (acc : List (String × WordInfo) × List String × Manager),
        dictNodup acc.1 → dictNodup (ws.foldl (batchCacheStep now) acc).1 by
      exact haux words ([], [], m) List.nodup_nil
    intro ws
    induction ws with
    | nil => exact fun acc h => h
    | cons w ws ih =>
      intro acc hacc
      rw [List.foldl_cons]
      apply ih
      unfold batchCacheStep
      cases hr : (acc.2.2.cacheGetWordInfo w now).1 with
      | some dp =>
        simp only [hr]
        exact dictNodup_insert _ _ _ hacc
      | none =>
        simp only [hr]
        exact hacc
  · rw [if_neg h]
    exact List.nodup_nil

/-- One step of the provider batch fold preserves key uniqueness. -/
theorem batchEntryStep_nodup (now : Int)
    (acc : List (String × WordInfo) × Manager) (entry : String × WordInfo)
    (h : dictNodup acc.1) : dictNodup (batchEntryStep now acc entry).1 := by
  unfold batchEntryStep
  by_cases hc : entry.2.definition ≠ "" ∨ entry.2.pronunciation ≠ ""
  · rw [if_pos hc]
    exact dictNodup_insert _ _ _ h
  · rw [if_neg hc]
    exact h

/-- The provider phase of `batch_lookup` preserves key uniqueness. -/
theorem batchLoop_nodup (bbeh : BatchBeh) (uncached : List String)
    (now : Int) (names : List String) :
    ∀ (m : Manager) (result : List (String × WordInfo))
      (invoked : List String), dictNodup result →
      dictNodup (m.batchLoop names bbeh uncached now result invoked).1 := by
  induction names with
  | nil =>
    intro m result invoked h
    exact h
  | cons n rest ih =>
    intro m result invoked h
    unfold Manager.batchLoop
    cases hav : (m.is_service_available n now).1 with
    | true =>
      rw [if_pos hav]
      cases hb : bbeh n uncached with
      | some br =>
        simp only [hb]
        suffices haux : ∀ (l : List (String × WordInfo))
            (acc : List (String × WordInfo) × Manager), dictNodup acc.1 →
            dictNodup (l.foldl (batchEntryStep now) acc).1 by
          exact haux br (result, (m.is_service_available n now).2) h
        intro l
        induction l with
        | nil => exact fun acc ha => ha
        | cons e l ihl =>
          intro acc ha
          rw [List.foldl_cons]
          exact ihl _ (batchEntryStep_nodup now acc e ha)
      | none =>
        simp only [hb]
        exact ih _ _ _ h
    | false =>
      rw [if_neg (by simp [hav])]
      exact ih _ _ _ h

/-- The combined cache and provider phases produce a well-formed result
map. -/
theorem batchResolved_nodup (m : Manager) (bbeh : BatchBeh)
    (words : List String) (now : Int) :
    dictNodup (m.batchResolved bbeh words now).1 := by
  unfold Manager.batchResolved
  by_cases h : (m.batchCachePhase words now).2.1 ≠ []
  · rw [if_pos h]
    exact batchLoop_nodup _ _ _ _ _ _ _ (batchCachePhase_nodup m words now)
  · rw [if_neg h]
    exact batchCachePhase_nodup m words now

/-- C1: for every input word list (duplicates allowed) and every
behaviour of the registered providers — including all of them raising —
`batch_lookup` returns a map with pairwise-distinct keys in which every
input word is bound; any input word that neither the cache phase nor a
provider resolved is bound to the empty `WordInfo` with
`foundDefinition = false`, `foundPronunciation = false` and empty
definition and pronunciation strings, never left absent. -/
theorem batch_lookup_covers (m : Manager) (bbeh : BatchBeh)
    (words : List String) (now : Int) :
    dictNodup (m.batch_lookup bbeh words now).1 ∧
    ∀ w, w ∈ words →
      (dictLookup (m.batch_lookup bbeh words now).1 w).isSome = true ∧
      (dictLookup (m.batchResolved bbeh words now).1 w = none →
        dictLookup (m.batch_lookup bbeh words now).1 w =
          some (mkWordInfo w "" "" false false)) := by
  constructor
  · unfold Manager.batch_lookup
    by_cases hw : words = []
    · rw [if_pos hw]
      exact List.nodup_nil
    · rw [if_neg hw]
      exact batchFill_nodup words _ (batchResolved_nodup m bbeh words now)
  · intro w hw
    have hne : words ≠ [] := by
      intro he
      rw [he] at hw
      cases hw
    unfold Manager.batch_lookup
    rw [if_neg hne]
    exact ⟨batchFill_covers words _ w hw,
           fun hpre => batchFill_default words _ w hw hpre⟩

/-- Witness for C1: a cache-disabled manager with one provider that
always raises, looked up on a one-word batch. -/
theorem batch_lookup_covers_witness :
    (dictLookup (((Manager.init false).register_service "s" 3 true 0).batch_lookup (fun _ _ => none) ["hello"] 0).1 "hello").isSome = true ∧
    (dictLookup (((Manager.init false).register_service "s" 3 true 0).batchResolved (fun _ _ => none) ["hello"] 0).1 "hello" = none →
      dictLookup (((Manager.init false).register_service "s" 3 true 0).batch_lookup (fun _ _ => none) ["hello"] 0).1 "hello" =
        some (mkWordInfo "hello" "" "" false false)) :=
  (batch_lookup_covers ((Manager.init false).register_service "s" 3 true 0)
    (fun _ _ => none) ["hello"] 0).2 "hello" (by decide)

/-! ## C9: WordRecord invariants at the batch boundary -/

/-- ASCII lower-casing fixes characters outside the uppercase range. -/
theorem toLower_not_upper (c : Char) (h : ¬(c.toNat ≥ 65 ∧ c.toNat ≤ 90)) :
    c.toLower = c := by
  unfold Char.toLower
  simp only [if_neg h]

/-- ASCII lower-casing shifts an uppercase character by 32. -/
theorem toLower_upper_toNat (c : Char) (h : c.toNat ≥ 65 ∧ c.toNat ≤ 90) :
    c.toLower.toNat = c.toNat + 32 := by
  have hv : (c.toNat + 32).isValidChar := Or.inl (by omega)
  unfold Char.toLower
  rw [if_pos h]
  unfold Char.ofNat
  rw [dif_pos hv]
  rfl

/-- ASCII lower-casing is idempotent. -/
theorem toLower_toLower (c : Char) : c.toLower.toLower = c.toLower := by
  by_cases h : c.toNat ≥ 65 ∧ c.toNat ≤ 90
  · have h2 := toLower_upper_toNat c h
    apply toLower_not_upper
    omega
  · rw [toLower_not_upper c h, toLower_not_upper c h]

/-- Stripping is built from `dropWhile`; dropping twice is dropping
once. -/
theorem dropWhile_dropWhile {α : Type} (p : α → Bool) (l : List α) :
    (l.dropWhile p).dropWhile p = l.dropWhile p := by
  induction l with
  | nil => rfl
  | cons a l ih =>
    by_cases h : p a = true
    · simp [List.dropWhile_cons, h, ih]
    · simp [List.dropWhile_cons, h]

/-- The right-trim of a left-trimmed list starts with a non-dropped
element, so dropping from it again is the identity. -/
theorem dropWhile_rev_drop {α : Type} (p : α → Bool) (l : List α) :
    (((l.dropWhile p).reverse.dropWhile p).reverse).dropWhile p =
      ((l.dropWhile p).reverse.dropWhile p).reverse := by
  cases hz : (((l.dropWhile p).reverse.dropWhile p).reverse) with
  | nil => rfl
  | cons z zs =>
    rw [List.dropWhile_cons]
    have h1 : ((((l.dropWhile p).reverse.dropWhile p).reverse)).head? = some z := by
      rw [hz]
      rfl
    rw [List.head?_reverse] at h1
    obtain ⟨t, ht⟩ := List.dropWhile_suffix (l := (l.dropWhile p).reverse) p
    have h2 : ((l.dropWhile p).reverse).getLast? = some z := by
      rw [← ht, List.getLast?_append, h1]
      rfl
    rw [List.getLast?_reverse] at h2
    have h3 := List.head?_dropWhile_not p l
    rw [h2] at h3
    have hpz : p z = false := h3
    rw [hpz]
    simp

/-- Stripping is idempotent. -/
theorem trimChars_idem (l : List Char) :
    trimChars (trimChars l) = trimChars l := by
  unfold trimChars
  rw [dropWhile_rev_drop pyWhitespace l, List.reverse_reverse, dropWhile_dropWhile]

/-- Every character surviving the strip came from the input. -/
theorem mem_of_mem_trimChars (c : Char) (l : List Char)
    (h : c ∈ trimChars l) : c ∈ l := by
  unfold trimChars at h
  rw [List.mem_reverse] at h
  have h2 := (List.dropWhile_suffix pyWhitespace).subset h
  rw [List.mem_reverse] at h2
  exact (List.dropWhile_suffix pyWhitespace).subset h2

/-- Mapping a function that fixes every member is the identity. -/
theorem map_toLower_fix (l : List Char) (h : ∀ c ∈ l, c.toLower = c) :
    l.map Char.toLower = l := by
  induction l with
  | nil => rfl
  | cons a l ih =>
    rw [List.map_cons, h a (List.mem_cons_self a l),
        ih (fun c hc => h c (List.mem_cons_of_mem _ hc))]

/-- A stripped lower-cased list is fixed by lower-casing again. -/
theorem map_trim_fix (l : List Char) :
    (trimChars (l.map Char.toLower)).map Char.toLower =
      trimChars (l.map Char.toLower) := by
  apply map_toLower_fix
  intro c hc
  have hm := mem_of_mem_trimChars c _ hc
  obtain ⟨a, ha, he⟩ := List.mem_map.mp hm
  rw [← he]
  exact toLower_toLower a

/-- Normalisation (`lower().strip()`) is idempotent. -/
theorem normalizeWord_idem (s : String) :
    normalizeWord (normalizeWord s) = normalizeWord s := by
  unfold normalizeWord
  show (⟨trimChars ((trimChars (s.data.map Char.toLower)).map Char.toLower)⟩ : String) = ⟨trimChars (s.data.map Char.toLower)⟩
  rw [map_trim_fix, trimChars_idem]

/-- Every `WordInfo` built through the dataclass constructor carries a
normalised word. -/
theorem mkWordInfo_normalized (w d p : String) (f1 f2 : Bool) :
    IsNormalized (mkWordInfo w d p f1 f2).word := by
  unfold IsNormalized mkWordInfo
  exact normalizeWord_idem w

/-- Inserting a value satisfying a predicate into a dict whose values
all satisfy it preserves the property. -/
theorem dictInsert_forall {α : Type} (P : α → Prop)
    (d : List (String × α)) (k : String) (v : α)
    (hd : ∀ kr ∈ d, P kr.2) (hv : P v) :
    ∀ kr ∈ dictInsert d k v, P kr.2 := by
  induction d with
  | nil =>
    intro kr hkr
    rcases List.mem_singleton.mp hkr with rfl
    exact hv
  | cons q ps ih =>
    intro kr hkr
    unfold dictInsert at hkr
    by_cases hp : q.1 = k
    · rw [if_pos hp] at hkr
      cases List.mem_cons.mp hkr with
      | inl h =>
        rw [h]
        exact hv
      | inr h => exact hd kr (List.mem_cons_of_mem _ h)
    · rw [if_neg hp] at hkr
      cases List.mem_cons.mp hkr with
      | inl h =>
        rw [h]
        exact hd q (List.mem_cons_self q ps)
      | inr h =>
        exact ih (fun r hr => hd r (List.mem_cons_of_mem _ hr)) kr h

/-- Every record produced by the cache phase has a normalised word. -/
theorem batchCachePhase_normalized (m : Manager) (words : List String)
    (now : Int) :
    ∀ kr ∈ (m.batchCachePhase words now).1, IsNormalized kr.2.word := by
  unfold Manager.batchCachePhase
  by_cases h : m.cache_enabled ∧ m.cache.isSome
  · rw [if_pos h]
    suffices haux : ∀ (ws : List String)
        (acc : List (String × WordInfo) × List String × Manager),
        (∀ kr ∈ acc.1, IsNormalized kr.2.word) →
        ∀ kr ∈ (ws.foldl (batchCacheStep now) acc).1, IsNormalized kr.2.word by
      exact haux words ([], [], m) (by intro kr hkr; cases hkr)
    intro ws
    induction ws with
    | nil => exact fun acc ha => ha
    | cons w ws ih =>
      intro acc hacc
      rw [List.foldl_cons]
      apply ih
      unfold batchCacheStep
      cases hr : (acc.2.2.cacheGetWordInfo w now).1 with
      | some dp =>
        simp only [hr]
        exact dictInsert_forall (fun wi : WordInfo => IsNormalized wi.word) _ _ _ hacc (mkWordInfo_normalized _ _ _ _ _)
      | none =>
        simp only [hr]
        exact hacc
  · rw [if_neg h]
    intro kr hkr
    cases hkr

/-- Every record produced by the provider phase has a normalised word,
assuming every provider-returned record does. -/
theorem batchLoop_normalized (bbeh : BatchBeh) (uncached : List String)
    (now : Int)
    (hb : ∀ name ws l, bbeh name ws = some l → ∀ e ∈ l, IsNormalized e.2.word)
    (names : List String) :
    ∀ (m : Manager) (result : List (String × WordInfo))
      (invoked : List String),
      (∀ kr ∈ result, IsNormalized kr.2.word) →
      ∀ kr ∈ (m.batchLoop names bbeh uncached now result invoked).1,
        IsNormalized kr.2.word := by
  induction names with
  | nil =>
    intro m result invoked h
    exact h
  | cons n rest ih =>
    intro m result invoked h
    unfold Manager.batchLoop
    cases hav : (m.is_service_available n now).1 with
    | true =>
      rw [if_pos hav]
      cases hbn : bbeh n uncached with
      | some br =>
        simp only [hbn]
        have hbr : ∀ e ∈ br, IsNormalized e.2.word := hb n uncached br hbn
        suffices haux : ∀ (l : List (String × WordInfo))
            (acc : List (String × WordInfo) × Manager),
            (∀ e ∈ l, IsNormalized e.2.word) →
            (∀ kr ∈ acc.1, IsNormalized kr.2.word) →
            ∀ kr ∈ (l.foldl (batchEntryStep now) acc).1, IsNormalized kr.2.word by
          exact haux br (result, (m.is_service_available n now).2) hbr h
        intro l
        induction l with
        | nil => exact fun acc _ ha => ha
        | cons e l ihl =>
          intro acc hl ha
          rw [List.foldl_cons]
          apply ihl _ (fun q hq => hl q (List.mem_cons_of_mem _ hq))
          unfold batchEntryStep
          by_cases hc : e.2.definition ≠ "" ∨ e.2.pronunciation ≠ ""
          · rw [if_pos hc]
            exact dictInsert_forall (fun wi : WordInfo => IsNormalized wi.word) _ _ _ ha (hl e (List.mem_cons_self e l))
          · rw [if_neg hc]
            exact ha
      | none =>
        simp only [hbn]
        exact ih _ _ _ h
    | false =>
      rw [if_neg (by simp [hav])]
      exact ih _ _ _ h

/-- Every record produced by the fill loop has a normalised word. -/
theorem batchFill_normalized (words : List String) :
    ∀ (res : List (String × WordInfo)),
      (∀ kr ∈ res, IsNormalized kr.2.word) →
      ∀ kr ∈ batchFill res words, IsNormalized kr.2.word := by
  induction words with
  | nil =>
    intro res h
    exact h
  | cons x xs ih =>
    intro res h
    unfold batchFill at ih ⊢
    rw [List.foldl_cons]
    cases hx : dictLookup res x with
    | some q =>
      simp only [hx]
      exact ih res h
    | none =>
      simp only [hx]
      exact ih _ (dictInsert_forall (fun wi : WordInfo => IsNormalized wi.word) _ _ _ h (mkWordInfo_normalized _ _ _ _ _))

/-- C9 counterexample: a provider batch record with a non-empty
definition and an empty pronunciation passes through `batch_lookup`
unchanged, so the boundary record has `foundPronunciation = true` with
an empty pronunciation string — refuting "`foundX` is false exactly when
the corresponding string is empty". -/
theorem word_record_flags_counterexample :
    (dictLookup (mgr9.batch_lookup bb9 ["test"] 0).1 "test").map
      (fun r => (r.pronunciation, r.found_pronunciation)) = some ("", true) := by
  decide

/-- C9 (amended): every record at the `batch_lookup` boundary carries a
lower-cased, trimmed word (provider records do too, since every Python
`WordInfo` is normalised on construction — stated as a hypothesis on the
provider behaviour); records created by the manager for words that
neither the cache nor a provider resolved have
`foundDefinition = foundPronunciation = false` and empty strings.
Records passed through from a provider keep the provider's flags, which
may be `true` alongside an empty string (see the counterexample), and
cache-hit records always carry `found* = true`. -/
theorem word_record_invariants (m : Manager) (bbeh : BatchBeh)
    (words : List String) (now : Int)
    (hb : ∀ name ws l, bbeh name ws = some l → ∀ e ∈ l, IsNormalized e.2.word) :
    (∀ kr ∈ (m.batch_lookup bbeh words now).1, IsNormalized kr.2.word) ∧
    (∀ w ∈ words, dictLookup (m.batchResolved bbeh words now).1 w = none →
      dictLookup (m.batch_lookup bbeh words now).1 w =
        some (mkWordInfo w "" "" false false)) := by
  constructor
  · unfold Manager.batch_lookup
    by_cases hw : words = []
    · rw [if_pos hw]
      intro kr hkr
      cases hkr
    · rw [if_neg hw]
      apply batchFill_normalized
      unfold Manager.batchResolved
      by_cases hu : (m.batchCachePhase words now).2.1 ≠ []
      · rw [if_pos hu]
        exact batchLoop_normalized bbeh _ now hb _ _ _ _
          (batchCachePhase_normalized m words now)
      · rw [if_neg hu]
        exact batchCachePhase_normalized m words now
  · intro w hw hpre
    have hne : words ≠ [] := by
      intro he
      rw [he] at hw
      cases hw
    unfold Manager.batch_lookup
    rw [if_neg hne]
    exact batchFill_default words _ w hw hpre

/-- Witness for C9: the normalisation invariant evaluated on the
concrete provider record of `bb9n`. -/
theorem word_record_invariants_witness :
    IsNormalized (("test", mkWordInfo "test" "x" "y" true true) : String × WordInfo).2.word :=
  (word_record_invariants mgr9 bb9n ["test"] 0
    (by
      intro name ws l h e he
      injection h with h
      rw [← h] at he
      rcases List.mem_singleton.mp he with rfl
      exact mkWordInfo_normalized _ _ _ _ _)).1
    ("test", mkWordInfo "test" "x" "y" true true) (by decide)

end VocabX
